import Mathlib

set_option autoImplicit false

/-!
Verification development for the fast-paced multiplayer game repository.

The Rust sources are shallowly embedded:
* bytes and machine integers become `Nat` (with explicit `% 2 ^ 32` where the
  source casts to `u32`),
* `f32` arithmetic is idealized as exact rational arithmetic (`ℚ`); the one
  place where IEEE special values matter (`Segment::ray_cast` dividing by a
  zero cross product) is additionally embedded with an explicit
  NaN/infinity-aware value type,
* `Instant`-based ages (`now - birth_instant`) are modelled by storing each
  entity's elapsed age and advancing it by `dt` at the start of each tick,
* panics (`unwrap`, `assert!`, `panic!`) become `Option`/`none`,
* `RefCell` interior mutability inside `GameState` becomes index-based list
  updates; a failing `try_borrow_mut` (borrowing the entity already held by
  the outer damage loop) becomes skipping that index.
-/

namespace MP

/-! ## Packet framing (src/common/packeter.rs) -/

/-- Big-endian bytes of `data.len() as u32`, as in
`PacketSize::to_be_bytes(data.len() as u32)`. -/
def toBE32 (n : ℕ) : List ℕ :=
  [n % 2 ^ 32 / 2 ^ 24 % 256, n % 2 ^ 32 / 2 ^ 16 % 256,
   n % 2 ^ 32 / 2 ^ 8 % 256, n % 2 ^ 32 % 256]

/-- `PacketSize::from_be_bytes` applied to the first four buffered bytes. -/
def fromBE32 (bs : List ℕ) : ℕ :=
  match bs with
  | b0 :: b1 :: b2 :: b3 :: _ => ((b0 * 256 + b1) * 256 + b2) * 256 + b3
  | _ => 0

/-- `PacketWriter::write`: the length header followed by the payload.  The two
short-write assertions always hold for an in-memory sink and are dropped. -/
def PacketWriter.write (data : List ℕ) : List ℕ :=
  toBE32 data.length ++ data

/-- The byte stream produced by a sequence of `PacketWriter::write` calls. -/
def encodeStream (payloads : List (List ℕ)) : List ℕ :=
  (payloads.map PacketWriter.write).flatten

/-- Collecting `PacketReaderIter`: repeatedly, if at least four bytes are
buffered and the decoded size fits, drain the header and the payload;
otherwise stop, keeping the partial frame buffered
(`PacketReaderIter::next`). Returns the yielded payloads and the final
buffer. -/
def drainPackets (buffer : List ℕ) : List (List ℕ) × List ℕ :=
  if h4 : 4 ≤ buffer.length then
    if hsz : 4 + fromBE32 (buffer.take 4) ≤ buffer.length then
      let payload := (buffer.drop 4).take (fromBE32 (buffer.take 4))
      let r := drainPackets (buffer.drop (4 + fromBE32 (buffer.take 4)))
      (payload :: r.1, r.2)
    else ([], buffer)
  else ([], buffer)
termination_by buffer.length
decreasing_by simp only [List.length_drop]; omega

/-- One `PacketReader::read` call feeding `chunk` (possibly empty, as when the
socket reports `WouldBlock`) followed by collecting the iterator, then the
remaining calls.  Returns all yielded payloads in order and the final
buffer. -/
def processChunks (buffer : List ℕ) (chunks : List (List ℕ)) :
    List (List ℕ) × List ℕ :=
  match chunks with
  | [] => ([], buffer)
  | c :: cs =>
    let r := drainPackets (buffer ++ c)
    let r2 := processChunks r.2 cs
    (r.1 ++ r2.1, r2.2)


/-! ## Geometry kernel (src/common/math.rs)

`f32` values are idealized as exact rationals.  `f32::sqrt` is idealized as
`Rat.sqrt`, which is exact on perfect squares (`Rat.sqrt_eq`); every concrete
evaluation below only takes square roots of perfect squares. -/

/-- `lerp_f32`: `(a as f64 * (1. - t) + b as f64 * t) as f32`, idealized. -/
def lerp_f32 (a b t : ℚ) : ℚ :=
  a * (1 - t) + b * t

structure Point where
  x : ℚ
  y : ℚ
deriving DecidableEq

structure Vector where
  x : ℚ
  y : ℚ
deriving DecidableEq

structure Complex where
  r : ℚ
  i : ℚ
deriving DecidableEq

/-- `Point::origin`. -/
def Point.origin : Point := ⟨0, 0⟩

/-- `Sub for Point` (point difference is a vector). -/
def Point.sub (a b : Point) : Vector := ⟨a.x - b.x, a.y - b.y⟩

/-- `Add<Vector> for Point`. -/
def Point.addV (p : Point) (v : Vector) : Point := ⟨p.x + v.x, p.y + v.y⟩

/-- `Point::lerp`. -/
def Point.lerp (a b : Point) (t : ℚ) : Point :=
  ⟨lerp_f32 a.x b.x t, lerp_f32 a.y b.y t⟩

/-- `Complex::lerp`. -/
def Complex.lerp (a b : Complex) (t : ℚ) : Complex :=
  ⟨lerp_f32 a.r b.r t, lerp_f32 a.i b.i t⟩

/-- `Neg for Complex`. -/
def Complex.neg (c : Complex) : Complex := ⟨-c.r, -c.i⟩

/-- Modelled from the spec: `Mul<Complex> for Complex` and the constant `I`
live in a module of this repository that is not present under `src/`
(`game.rs` imports `I` from `super`); the spec says rotations are
"composed by complex multiplication", which is the standard product. -/
def Complex.mul (a b : Complex) : Complex :=
  ⟨a.r * b.r - a.i * b.i, a.r * b.i + a.i * b.r⟩

/-- Modelled from the spec: the imaginary unit rotation `I`. -/
def I : Complex := ⟨0, 1⟩

/-- `Vector::len`, with `f32::sqrt` idealized as `Rat.sqrt`. -/
def Vector.len (v : Vector) : ℚ :=
  Rat.sqrt (v.x * v.x + v.y * v.y)

/-- `Vector::cross`. -/
def Vector.cross (a b : Vector) : ℚ := a.x * b.y - a.y * b.x

/-- `Vector::dot`. -/
def Vector.dot (a b : Vector) : ℚ := a.x * b.x + a.y * b.y

/-- `Vector::normalize`. -/
def Vector.normalize (v : Vector) : Vector :=
  ⟨v.x / v.len, v.y / v.len⟩

/-- `Vector::normalize_into_complex`. -/
def Vector.normalize_into_complex (v : Vector) : Complex :=
  ⟨v.x / v.len, v.y / v.len⟩

/-- `Vector::left_perpendicular`. -/
def Vector.left_perpendicular (v : Vector) : Vector := ⟨-v.y, v.x⟩

/-- `Vector::polar`. -/
def Vector.polar (rot : Complex) (len : ℚ) : Vector :=
  ⟨rot.r * len, rot.i * len⟩

/-- `Mul<f32> for Vector` / `Mul<Vector> for f32`. -/
def Vector.smul (k : ℚ) (v : Vector) : Vector := ⟨k * v.x, k * v.y⟩

/-- `Vector::project_on`. -/
def Vector.project_on (v axis : Vector) : Vector :=
  Vector.smul (v.dot axis / axis.dot axis) axis

/-- `Mul<Complex> for Vector` (rotation of a vector). -/
def Vector.mulC (v : Vector) (rhs : Complex) : Vector :=
  ⟨v.x * rhs.r - v.y * rhs.i, v.x * rhs.i + v.y * rhs.r⟩

structure Segment where
  p0 : Point
  p1 : Point
deriving DecidableEq

structure Rect where
  x : ℚ
  y : ℚ
  w : ℚ
  h : ℚ
deriving DecidableEq

/-- `Rect::points`. -/
def Rect.points (r : Rect) : List Point :=
  [⟨r.x, r.y⟩, ⟨r.x + r.w, r.y⟩, ⟨r.x + r.w, r.y + r.h⟩, ⟨r.x, r.y + r.h⟩]

/-- `Rect::edges`. -/
def Rect.edges (r : Rect) : List Segment :=
  [⟨⟨r.x, r.y⟩, ⟨r.x + r.w, r.y⟩⟩,
   ⟨⟨r.x + r.w, r.y⟩, ⟨r.x + r.w, r.y + r.h⟩⟩,
   ⟨⟨r.x + r.w, r.y + r.h⟩, ⟨r.x, r.y + r.h⟩⟩,
   ⟨⟨r.x, r.y + r.h⟩, ⟨r.x, r.y⟩⟩]

/-- `Segment::vec`. -/
def Segment.vec (s : Segment) : Vector := s.p1.sub s.p0

/-- `Segment::project_on`. -/
def Segment.project_on (s : Segment) (axis : Vector) : Segment :=
  ⟨Point.origin.addV ((s.p0.sub Point.origin).project_on axis),
   Point.origin.addV ((s.p1.sub Point.origin).project_on axis)⟩

structure RayCastScalars where
  segments : Segment × Segment
  t : ℚ
  u : ℚ
deriving DecidableEq

/-- `RayCastScalars::intersects` (strict, open interval on both scalars). -/
def RayCastScalars.intersects (r : RayCastScalars) : Bool :=
  decide (0 < r.t) && decide (r.t < 1) && decide (0 < r.u) && decide (r.u < 1)

/-- `RayCastScalars::intersection_point`: the point on the first segment at
parameter `t`. -/
def RayCastScalars.intersection_point (r : RayCastScalars) : Point :=
  r.segments.1.p0.addV (Vector.smul r.t (r.segments.1.p1.sub r.segments.1.p0))

/-- `Segment::ray_cast`: parametric intersection scalars by 2-D cross
products.  The Rust function always returns `Some`; the rational embedding
maps the IEEE division by a zero cross product to `0` (Lean's division by
zero), which like NaN/infinity fails the strict `intersects` test — the
NaN-faithful model is `ray_castF` below. -/
def Segment.ray_cast (s rhs : Segment) : Option RayCastScalars :=
  let ac := rhs.p0.sub s.p0
  let cd := rhs.p1.sub rhs.p0
  let ab := s.p1.sub s.p0
  some ⟨(s, rhs), Vector.cross ac cd / Vector.cross ab cd,
    Vector.cross ac ab / Vector.cross ab cd⟩

/-- `abs_min` inside `intersects_on_basis`. -/
def abs_min (a b : ℚ) : ℚ := if |a| < |b| then a else b

/-- `intersects_on_basis` inside
`Segment::exit_vec_while_intersects_on_the_same_line`: overlap of two
one-dimensional intervals given by their (unordered) endpoints. -/
def intersects_on_basis (a0 a1 b0 b1 : ℚ) : Option ℚ :=
  let lo0 := min a0 a1
  let hi0 := max a0 a1
  let lo1 := min b0 b1
  let hi1 := max b0 b1
  if lo0 ≤ hi1 ∧ lo1 ≤ hi0 then some (abs_min (hi1 - lo0) (lo1 - hi0)) else none

/-- `Segment::exit_vec_while_intersects_on_the_same_line`. -/
def Segment.exit_vec_while_intersects_on_the_same_line (s rhs : Segment) :
    Option Vector :=
  match intersects_on_basis s.p0.x s.p1.x rhs.p0.x rhs.p1.x,
      intersects_on_basis s.p0.y s.p1.y rhs.p0.y rhs.p1.y with
  | some x, some y => some ⟨x, y⟩
  | _, _ => none

/-- Componentwise minimum (`min_point` inside `collide`). -/
def minPoint (p0 p1 : Point) : Point := ⟨min p0.x p1.x, min p0.y p1.y⟩

/-- Componentwise maximum (`max_point` inside `collide`). -/
def maxPoint (p0 p1 : Point) : Point := ⟨max p0.x p1.x, max p0.y p1.y⟩

/-- The `proj` closure inside `collide`: fold all projected edge endpoints
into the bounding segment of the projection.  `none` (for an empty shape)
models the `unwrap` panic. -/
def projShape (axis : Vector) (edges : List Segment) : Option Segment :=
  ((edges.map fun e => let p := e.project_on axis; [p.p0, p.p1]).flatten).foldl
    (fun m x =>
      match m with
      | none => some ⟨x, x⟩
      | some s => some ⟨minPoint s.p0 x, maxPoint s.p1 x⟩)
    none

/-- `Iterator::min_by` on the exit vectors, comparing by `Vector::len`; Rust's
`min_by` keeps the first of equally minimal elements. -/
def minByLen (vs : List Vector) : Option Vector :=
  match vs with
  | [] => none
  | v :: rest => some (rest.foldl (fun acc x => if x.len < acc.len then x else acc) v)

/-- The axis loop of `collide`.  Outer `none` models the `unwrap` panic on an
empty shape; `some none` is Rust's `None` (a separating axis was found);
`some (some v)` is a collision with exit vector `v`. -/
def collideGo (s rhs : List Segment) (axes : List Vector)
    (exit_vectors : List Vector) : Option (Option Vector) :=
  match axes with
  | [] => some (minByLen exit_vectors)
  | axis :: restAxes =>
    match projShape axis s, projShape axis rhs with
    | some proj0, some proj1 =>
      match proj0.exit_vec_while_intersects_on_the_same_line proj1 with
      | some exit_vec => collideGo s rhs restAxes (exit_vectors ++ [exit_vec])
      | none => some none
    | _, _ => none

/-- `Collide for [Segment; C0]::collide` (SAT collision). -/
def collide (s rhs : List Segment) : Option (Option Vector) :=
  collideGo s rhs
    ((s ++ rhs).map fun x => x.vec.left_perpendicular.normalize) []

/-- `Segments for [Point; C]::segments_ringe`: close the polygon ring.
(In-range indexing is total here, so `getD` equals the Rust indexing.) -/
def segments_ringe (pts : List Point) : List Segment :=
  (List.range pts.length).map fun i =>
    ⟨pts.getD i Point.origin, pts.getD ((i + 1) % pts.length) Point.origin⟩

/-- `DynSizeSegments for [Point]::segments`: consecutive pairs. -/
def segmentsOf (pts : List Point) : List Segment :=
  List.zipWith Segment.mk pts pts.tail

/-! ## IEEE-faithful scalars for `Segment::ray_cast`

`ray_cast` divides by a cross product that is zero exactly for parallel or
degenerate segments.  To settle what the `f32` code really does there, this
second embedding of the same source function tracks the IEEE special values
produced by that division (finite inputs, so only the division itself can
produce NaN or ±∞). -/

inductive FVal where
  | fin (q : ℚ)
  | pinf
  | ninf
  | nan
deriving DecidableEq

/-- IEEE `f32` division for finite operands: `0/0 = NaN`, `x/0 = ±∞` by the
sign of `x`, otherwise exact. -/
def fdiv (a b : ℚ) : FVal :=
  if b = 0 then (if a = 0 then .nan else if 0 < a then .pinf else .ninf)
  else .fin (a / b)

/-- IEEE `<` on the scalar values: NaN compares false with everything. -/
def FVal.ltB : FVal → FVal → Bool
  | .fin a, .fin b => decide (a < b)
  | .fin _, .pinf => true
  | .fin _, .ninf => false
  | .pinf, .fin _ => false
  | .ninf, .fin _ => true
  | .pinf, .pinf => false
  | .ninf, .ninf => false
  | .pinf, .ninf => false
  | .ninf, .pinf => true
  | .nan, _ => false
  | _, .nan => false

/-- IEEE `<=` on the scalar values: NaN compares false with everything. -/
def FVal.leB : FVal → FVal → Bool
  | .fin a, .fin b => decide (a ≤ b)
  | .fin _, .pinf => true
  | .fin _, .ninf => false
  | .pinf, .fin _ => false
  | .ninf, .fin _ => true
  | .pinf, .pinf => true
  | .ninf, .ninf => true
  | .pinf, .ninf => false
  | .ninf, .pinf => true
  | .nan, _ => false
  | _, .nan => false

/-- NaN or an infinity. -/
def FVal.isNanOrInf : FVal → Bool
  | .fin _ => false
  | _ => true

structure RayCastScalarsF where
  segments : Segment × Segment
  t : FVal
  u : FVal
deriving DecidableEq

/-- `Segment::ray_cast`, IEEE-faithful embedding. -/
def Segment.ray_castF (s rhs : Segment) : Option RayCastScalarsF :=
  let ac := rhs.p0.sub s.p0
  let cd := rhs.p1.sub rhs.p0
  let ab := s.p1.sub s.p0
  some ⟨(s, rhs), fdiv (Vector.cross ac cd) (Vector.cross ab cd),
    fdiv (Vector.cross ac ab) (Vector.cross ab cd)⟩

/-- `RayCastScalars::intersects`, IEEE-faithful. -/
def RayCastScalarsF.intersects (r : RayCastScalarsF) : Bool :=
  FVal.ltB (.fin 0) r.t && FVal.ltB r.t (.fin 1) &&
    FVal.ltB (.fin 0) r.u && FVal.ltB r.u (.fin 1)

/-- `RayCastScalars::intersects_including`, IEEE-faithful. -/
def RayCastScalarsF.intersects_including (r : RayCastScalarsF) : Bool :=
  FVal.leB (.fin 0) r.t && FVal.leB r.t (.fin 1) &&
    FVal.leB (.fin 0) r.u && FVal.leB r.u (.fin 1)

/-! ## World model (src/common/game.rs)

`Duration`s and elapsed times are rationals (in seconds); each entity stores
its elapsed age (`now - birth_instant`), advanced by `dt` at the start of
every tick.  `u8` health is a `ℕ` (every decrement in the source is guarded
by a zero test, so no wrapping can occur); `u32` entity ids and `u64` player
ids are `ℕ` (the id counter is monotone; its overflow after `2^32` creations
is out of scope). -/

/-- Modelled from the spec: `Complex::from_rad`,
`Complex::reflect_from` and `RayCastScalars::intersection_point_u_mul` are
called from `game.rs` but defined in a source file of this repository that is
not present under `src/`.  The spec fixes none of their formulas, so the
whole development is parameterized over them; every theorem below holds for
all values of these three operations. -/
structure MissingOps where
  from_rad : ℚ → Complex
  reflect_from : Complex → Vector → Complex
  intersection_point_u_mul : RayCastScalars → ℚ → Point

/-- The exact value of `std::f32::consts::PI`. -/
def pi_f32 : ℚ := 13176795 / 4194304

structure Color where
  a : ℕ
  r : ℕ
  g : ℕ
  b : ℕ
deriving DecidableEq

structure Shield where
  width : ℚ
  dst_from_character : ℚ
deriving DecidableEq

/-- `Shield::segment`. -/
def Shield.segment (sh : Shield) (character_pos : Point)
    (character_rot : Complex) : Segment :=
  let c := character_pos.addV (Vector.polar character_rot sh.dst_from_character)
  ⟨c.addV (Vector.polar (character_rot.mul I.neg) (sh.width / 2)),
   c.addV (Vector.polar (character_rot.mul I) (sh.width / 2))⟩

inductive ProjectileKind where
  | Ball (life_duration owner_invincibility_duration velocity : ℚ)
      (health : ℕ) (radius : ℚ)
  | Ray (life_duration owner_invincibility_duration tail_freeze_duration
      velocity : ℚ) (health : ℕ)
  | Mine (life_duration owner_invincibility_duration activation_duration
      velocity acceleration radius detection_radius explosion_radius : ℚ)
      (debris_kind : ProjectileKind) (debris_count : ℕ)
deriving DecidableEq

inductive CharacterWeapon where
  | BallGun (life_duration owner_invincibility_duration fire_interval
      velocity : ℚ) (projectile_health : ℕ) (radius : ℚ)
  | RayGun (life_duration owner_invincibility_duration tail_freeze_duration
      fire_interval velocity : ℚ) (projectile_health : ℕ)
  | Shield (shield : Shield) (self_destruct_timeout : ℚ)
  | MineGun (fire_interval life_duration owner_invincibility_duration
      activation_duration start_velocity acceleration radius detection_radius
      explosion_radius : ℚ) (debris_kind : ProjectileKind) (debris_count : ℕ)
deriving DecidableEq

inductive EntityRole where
  | Character (weapon : CharacterWeapon)
  | Projectile (kind : ProjectileKind)
deriving DecidableEq

structure EntityTail where
  end_ : Point
  rotation : Complex
  reflection_points : List Point
deriving DecidableEq

structure Entity where
  id : ℕ
  player_id : ℕ
  age : ℚ
  pos : Point
  rot : Complex
  color : Color
  role : EntityRole
  health : ℕ
  tail : Option EntityTail
  activated : Bool
deriving DecidableEq

/-- `Entity::lerp`: position and rotation interpolate, everything else is
taken from `b`. -/
def Entity.lerp (a b : Entity) (t : ℚ) : Entity :=
  ⟨b.id, b.player_id, b.age, Point.lerp a.pos b.pos t,
    Complex.lerp a.rot b.rot t, b.color, b.role, b.health, b.tail, b.activated⟩

/-- `Entity::inscribed_circle_radius`. -/
def Entity.inscribed_circle_radius (e : Entity) : ℚ :=
  match e.role with
  | .Character _ => 8
  | .Projectile (.Ball _ _ _ _ radius) => radius
  | .Projectile (.Ray _ _ _ _ _) => 2
  | .Projectile (.Mine _ _ _ _ _ radius _ _ _ _) => radius

/-- `Entity::vertices`: the rotated 16×16 box corners. -/
def Entity.vertices (e : Entity) : List Point :=
  [e.pos.addV ((⟨-8, -8⟩ : Vector).mulC e.rot),
   e.pos.addV ((⟨8, -8⟩ : Vector).mulC e.rot),
   e.pos.addV ((⟨8, 8⟩ : Vector).mulC e.rot),
   e.pos.addV ((⟨-8, 8⟩ : Vector).mulC e.rot)]

structure EntityCreateInfo where
  pos : Point
  rot : Complex
  color : Color
  role : EntityRole
  tail : Option EntityTail
deriving DecidableEq

structure GameState where
  entities : List Entity
  world_bounds : Rect
  next_entity_id : ℕ
  kills : List ℕ
deriving DecidableEq

/-- `GameState::new`. -/
def GameState.new : GameState :=
  ⟨[], ⟨32, 32 + 16, 800 - 64, 600 - 64⟩, 0, []⟩

/-- Initial health by role in `GameState::create`. -/
def createHealth : EntityRole → ℕ
  | .Character _ => 3
  | .Projectile (.Ball _ _ _ health _) => health
  | .Projectile (.Ray _ _ _ _ health) => health
  | .Projectile (.Mine _ _ _ _ _ _ _ _ _ _) => 0

/-- `GameState::create`: push a fresh entity with the next id and bump the
counter. -/
def GameState.create (s : GameState) (entity : EntityCreateInfo)
    (player_id : ℕ) : GameState :=
  { s with
    entities := s.entities ++
      [⟨s.next_entity_id, player_id, 0, entity.pos, entity.rot, entity.color,
        entity.role, createHealth entity.role, entity.tail, false⟩],
    next_entity_id := s.next_entity_id + 1 }

/-- `GameState::find_by_id_mut` (as a pure lookup): first entity with the
id. -/
def GameState.find_by_id (s : GameState) (id : ℕ) : Option Entity :=
  s.entities.find? fun x => x.id == id

/-- Replace the first entity whose id matches. -/
def replaceFirstById : List Entity → ℕ → Entity → List Entity
  | [], _, _ => []
  | x :: xs, id, e =>
    if x.id == id then e :: xs else x :: replaceFirstById xs id e

/-- `GameState::add_or_replace_by_id`. -/
def GameState.add_or_replace_by_id (s : GameState) (id : ℕ) (e : Entity) :
    GameState :=
  if s.entities.any (fun x => x.id == id) then
    { s with entities := replaceFirstById s.entities id e }
  else
    { s with entities := s.entities ++ [e] }

/-- The rotation update of `GameState::reflect` for bound edge `i`: the top
edge forces the vertical component non-negative, the right edge forces the
horizontal component non-positive, the bottom edge forces the vertical
component non-positive, the left edge forces the horizontal component
non-negative; any other index is the `panic!("Wups!!!")` arm. -/
def reflectRotAtEdge (i : ℕ) (rotation : Complex) : Option Complex :=
  match i with
  | 0 => some ⟨rotation.r, |rotation.i|⟩
  | 1 => some ⟨-|rotation.r|, rotation.i⟩
  | 2 => some ⟨rotation.r, -|rotation.i|⟩
  | 3 => some ⟨|rotation.r|, rotation.i⟩
  | _ => none

/-- The shield loop of `GameState::reflect`: first shield segment strictly
crossed by the motion segment wins. -/
def reflectShieldLoop (M : MissingOps) (rotation : Complex)
    (shields : List Segment) (motion : Segment) : Option (Point × Complex) :=
  match shields with
  | [] => none
  | shield :: rest =>
    match shield.ray_cast motion with
    | some r =>
      if r.intersects then
        some (M.intersection_point_u_mul r (99 / 100),
          M.reflect_from rotation shield.vec)
      else reflectShieldLoop M rotation rest motion
    | none => reflectShieldLoop M rotation rest motion

/-- `Iterator::enumerate`. -/
def enumList {α : Type} : List α → ℕ → List (ℕ × α)
  | [], _ => []
  | x :: xs, n => (n, x) :: enumList xs (n + 1)

/-- The bound-edge loop of `GameState::reflect`.  Outer `none` is the
`panic!` arm; `some none` means no edge was crossed. -/
def reflectBoundLoop (rotation : Complex) (edges : List (ℕ × Segment))
    (motion : Segment) : Option (Option (Point × Complex)) :=
  match edges with
  | [] => some none
  | (i, edge) :: rest =>
    match edge.ray_cast motion with
    | some r =>
      if r.intersects then
        match reflectRotAtEdge i rotation with
        | some rot2 => some (some (r.intersection_point, rot2))
        | none => none
      else reflectBoundLoop rotation rest motion
    | none => reflectBoundLoop rotation rest motion

/-- `GameState::reflect`: result is the updated position, the updated
rotation, and whether a reflection happened; `none` is the `panic!` arm. -/
def GameState.reflect (M : MissingOps) (position : Point) (rotation : Complex)
    (bounds : Rect) (shields : List Segment) (motion_segment : Segment) :
    Option (Point × Complex × Bool) :=
  match reflectShieldLoop M rotation shields motion_segment with
  | some (p, rot2) => some (p, rot2, true)
  | none =>
    match reflectBoundLoop rotation (enumList bounds.edges 0) motion_segment with
    | none => none
    | some (some (p, rot2)) => some (p, rot2, true)
    | some none => some (position, rotation, false)

/-- The `step` helper inside `GameState::proceed`: look ahead along a
doubled motion segment; on reflection update the reflection-point queue
(pop front for the tail end, push back for the head), otherwise advance by
one velocity step. -/
def step (M : MissingOps) (position : Point) (rotation : Complex)
    (reflection_points : Option (List Point)) (tail : Bool) (bounds : Rect)
    (shields : List Segment) (velosity dt : ℚ) :
    Option (Point × Complex × Option (List Point)) :=
  let motion : Segment :=
    ⟨position, position.addV (Vector.polar rotation (velosity * 2 * dt))⟩
  match GameState.reflect M position rotation bounds shields motion with
  | none => none
  | some (p, rot2, reflected) =>
    if reflected then
      let rps := match reflection_points with
        | some rps => some (if tail then rps.drop 1 else rps ++ [p])
        | none => none
      some (p, rot2, rps)
    else
      some (position.addV (Vector.polar rotation (velosity * dt)), rotation,
        reflection_points)

/-- Projectile velocity, as read off the cloned kind at the top of the
retain closure. -/
def ProjectileKind.velocity : ProjectileKind → ℚ
  | .Ball _ _ v _ _ => v
  | .Ray _ _ _ v _ => v
  | .Mine _ _ _ v _ _ _ _ _ _ => v

/-- Projectile life duration, as read off the cloned kind. -/
def ProjectileKind.life_duration : ProjectileKind → ℚ
  | .Ball l _ _ _ _ => l
  | .Ray l _ _ _ _ => l
  | .Mine l _ _ _ _ _ _ _ _ _ => l

/-- `f32::signum` idealized: `-1` for negatives, `1` otherwise (IEEE maps
`+0.0` to `1.0`; the unrepresentable `-0.0` never arises from the additions
here). -/
def signumQ (q : ℚ) : ℚ := if q < 0 then -1 else 1

/-- The body of the retain/advance closure in `GameState::proceed` for one
entity: returns the advanced entity and whether it is retained; `none` is a
panic (`tail.unwrap()` on a ray without a tail, or the reflection panic). -/
def advanceEntity (M : MissingOps) (bounds : Rect) (shields : List Segment)
    (dt : ℚ) (e : Entity) : Option (Entity × Bool) :=
  match e.role with
  | .Character _ => some (e, true)
  | .Projectile kind =>
    let velosity := kind.velocity
    let life_duration := kind.life_duration
    match kind with
    | .Ray life inv freeze vel health =>
      match e.tail with
      | none => none
      | some tl =>
        let head :=
          if e.age < life then
            step M e.pos e.rot (some tl.reflection_points) false bounds
              shields velosity dt
          else some (e.pos, e.rot, some tl.reflection_points)
        match head with
        | none => none
        | some (pos1, rot1, rps1) =>
          let tailRes :=
            if freeze < e.age then
              step M tl.end_ tl.rotation rps1 true bounds shields velosity dt
            else some (tl.end_, tl.rotation, rps1)
          match tailRes with
          | none => none
          | some (tend2, trot2, rps2) =>
            some (⟨{ e with
                      pos := pos1
                      rot := rot1
                      tail := some ⟨tend2, trot2, rps2.getD []⟩
                      role := .Projectile (.Ray life inv freeze vel health) },
              decide (e.age < life + freeze)⟩)
    | .Mine life inv activation vel acc radius det expl dkind dcount =>
      let activated2 := decide (activation < e.age)
      let new_velocity := vel + acc * dt
      let vel2 := if signumQ vel = signumQ new_velocity then new_velocity
        else vel
      match step M e.pos e.rot none false bounds shields velosity dt with
      | none => none
      | some (pos1, rot1, _) =>
        some (⟨{ e with
                  pos := pos1
                  rot := rot1
                  activated := activated2
                  role := .Projectile
                    (.Mine life inv activation vel2 acc radius det expl dkind
                      dcount) },
          decide (e.age < life)⟩)
    | .Ball _ _ _ _ _ =>
      match step M e.pos e.rot none false bounds shields velosity dt with
      | none => none
      | some (pos1, rot1, _) =>
        some ({ e with pos := pos1, rot := rot1 },
          decide (e.age < life_duration))

/-- The retain pass of `GameState::proceed` over the whole entity list. -/
def advanceEntities (M : MissingOps) (bounds : Rect) (shields : List Segment)
    (dt : ℚ) : List Entity → Option (List Entity)
  | [] => some []
  | e :: rest =>
    match advanceEntity M bounds shields dt e with
    | none => none
    | some (e1, keep) =>
      match advanceEntities M bounds shields dt rest with
      | none => none
      | some rest1 => some (if keep then e1 :: rest1 else rest1)

/-- Shield segments collected at the top of `GameState::proceed`. -/
def collectShields (entities : List Entity) : List Segment :=
  entities.filterMap fun e =>
    match e.role with
    | .Character (.Shield sh _) => some (sh.segment e.pos e.rot)
    | _ => none

/-- Is the entity a projectile? -/
def Entity.isProjectile (e : Entity) : Bool :=
  match e.role with
  | .Projectile _ => true
  | _ => false

/-- Is the entity a character? -/
def Entity.isCharacter (e : Entity) : Bool :=
  match e.role with
  | .Character _ => true
  | _ => false

/-- The `.any` over trace segments in the ray damage branch, threading the
(unreachable for nonempty shapes) `unwrap` panic of `collide`. -/
def anyCollides (segs : List Segment) (shape : List Segment) : Option Bool :=
  match segs with
  | [] => some false
  | seg :: rest =>
    match collide [seg] shape with
    | none => none
    | some r => if r.isSome then some true else anyCollides rest shape

/-- The debris spawned by a mine explosion (the `0..debris_count` loop). -/
def mineDebris (M : MissingOps) (p : Entity) (dkind : ProjectileKind)
    (dcount : ℕ) : List (EntityCreateInfo × ℕ) :=
  (List.range dcount).map fun i =>
    let rot := M.from_rad ((i : ℚ) / (dcount : ℚ) * 2 * pi_f32)
    (⟨p.pos, rot, p.color, .Projectile dkind, some ⟨p.pos, rot, []⟩⟩,
      p.player_id)

/-- The inner-loop body of damage resolution for one character/entity pair:
returns the updated character, the updated inner entity, the ids pushed into
`kills`, the queued debris create-infos, and whether the loop `break`s.
`none` models the `tail.unwrap()` panic for a ray without a tail. -/
def damageBody (M : MissingOps) (dt : ℚ) (c p : Entity) :
    Option (Entity × Entity × List ℕ × List (EntityCreateInfo × ℕ) × Bool) :=
  match p.role with
  | .Projectile (.Ball _ inv _ _ _) =>
    if p.player_id ≠ c.player_id ∨ inv < p.age then
      if c.health ≠ 0 ∧ p.health ≠ 0 ∧
          (c.pos.sub p.pos).len <
            c.inscribed_circle_radius + p.inscribed_circle_radius then
        let c2 := { c with health := c.health - 1 }
        let p2 := { p with health := p.health - 1 }
        some (c2, p2,
          (if c2.health = 0 then [c.id] else []) ++
            (if p2.health = 0 then [p.id] else []), [], true)
      else some (c, p, [], [], false)
    else some (c, p, [], [], false)
  | .Projectile (.Ray _ inv _ _ _) =>
    match p.tail with
    | none => none
    | some tl =>
      if p.player_id ≠ c.player_id ∨ inv < p.age then
        if c.health ≠ 0 ∧ p.health ≠ 0 then
          let projectile_trace := tl.end_ :: (tl.reflection_points ++ [p.pos])
          match anyCollides (segmentsOf projectile_trace)
              (segments_ringe c.vertices) with
          | none => none
          | some true =>
            let c2 := { c with health := c.health - 1 }
            let p2 := { p with health := p.health - 1 }
            some (c2, p2,
              (if c2.health = 0 then [c.id] else []) ++
                (if p2.health = 0 then [p.id] else []), [], true)
          | some false => some (c, p, [], [], false)
        else some (c, p, [], [], false)
      else some (c, p, [], [], false)
  | .Projectile (.Mine _ inv _ _ acc _ det expl dkind dcount) =>
    if p.activated ∧ (p.player_id ≠ c.player_id ∨ inv < p.age) then
      let accel : Option Vector :=
        if (c.pos.sub p.pos).len < c.inscribed_circle_radius + det then
          some (Vector.smul (-2 * acc * dt) ((c.pos.sub p.pos).normalize))
        else none
      if (c.pos.sub p.pos).len < c.inscribed_circle_radius + expl then
        some (c, p, [p.id], mineDebris M p dkind dcount, true)
      else
        match accel with
        | some a => some (c, { p with pos := p.pos.addV a }, [], [], false)
        | none => some (c, p, [], [], false)
    else some (c, p, [], [], false)
  | .Character _ => some (c, p, [], [], false)

/-- The inner damage loop for one character over the entity indices `js`
(the character's own index is skipped by the caller: its `try_borrow_mut`
fails).  Stops at the first `break`. -/
def damageInner (M : MissingOps) (dt : ℚ) (c : Entity) (entities : List Entity)
    (kills : List ℕ) (creates : List (EntityCreateInfo × ℕ)) :
    List ℕ → Option (Entity × List Entity × List ℕ × List (EntityCreateInfo × ℕ))
  | [] => some (c, entities, kills, creates)
  | j :: rest =>
    match entities[j]? with
    | none => damageInner M dt c entities kills creates rest
    | some p =>
      match damageBody M dt c p with
      | none => none
      | some (c2, p2, ks, crs, brk) =>
        let entities2 := entities.set j p2
        if brk then some (c2, entities2, kills ++ ks, creates ++ crs)
        else damageInner M dt c2 entities2 (kills ++ ks) (creates ++ crs) rest

/-- The outer damage loop over all entity indices; non-characters are
skipped. -/
def damageOuter (M : MissingOps) (dt : ℚ) (entities : List Entity)
    (kills : List ℕ) (creates : List (EntityCreateInfo × ℕ)) :
    List ℕ → Option (List Entity × List ℕ × List (EntityCreateInfo × ℕ))
  | [] => some (entities, kills, creates)
  | ci :: rest =>
    match entities[ci]? with
    | none => damageOuter M dt entities kills creates rest
    | some c =>
      match c.role with
      | .Character _ =>
        match damageInner M dt c entities kills creates
            ((List.range entities.length).filter fun j => j ≠ ci) with
        | none => none
        | some (c2, entities2, kills2, creates2) =>
          damageOuter M dt (entities2.set ci c2) kills2 creates2 rest
      | _ => damageOuter M dt entities kills creates rest

/-- The sweep pass of `GameState::proceed`: drop each projectile whose id is
queued in `kills`, removing the first matching kill record; characters are
exempt. -/
def sweep : List Entity → List ℕ → List Entity × List ℕ
  | [], kills => ([], kills)
  | e :: rest, kills =>
    if e.id ∈ kills ∧ e.isProjectile then sweep rest (kills.erase e.id)
    else
      let r := sweep rest kills
      (e :: r.1, r.2)

/-- `GameState::proceed`: age every entity by `dt`, collect shields, run the
retain/advance pass, the damage-resolution pass, the sweep pass, and finally
materialize mine debris.  `none` is a panic anywhere inside. -/
def GameState.proceed (s : GameState) (M : MissingOps) (dt : ℚ) :
    Option GameState :=
  let aged := s.entities.map fun e => { e with age := e.age + dt }
  let shields := collectShields aged
  match advanceEntities M s.world_bounds shields dt aged with
  | none => none
  | some retained =>
    match damageOuter M dt retained s.kills [] (List.range retained.length) with
    | none => none
    | some (ents2, kills2, creates) =>
      let r := sweep ents2 kills2
      some (creates.foldl (fun st ic => st.create ic.1 ic.2)
        { s with entities := r.1, kills := r.2 })

/-- `GameState::register_kill`: `none` models the failed
`assert!(!self.kills.contains(&id))`. -/
def GameState.register_kill (s : GameState) (id : ℕ) : Option GameState :=
  if id ∈ s.kills then none
  else some { s with kills := s.kills ++ [id] }

/-- The retain pass of `GameState::account_kill`. -/
def accountSweep (player_id : ℕ) : List Entity → List ℕ → List Entity × List ℕ
  | [], kills => ([], kills)
  | e :: rest, kills =>
    if e.isCharacter ∧ e.player_id = player_id ∧ e.id ∈ kills then
      accountSweep player_id rest (kills.erase e.id)
    else
      let r := accountSweep player_id rest kills
      (e :: r.1, r.2)

/-- `GameState::account_kill`: remove the killed character owned by the
player (if queued) and report whether anything was removed. -/
def GameState.account_kill (s : GameState) (player_id : ℕ) :
    GameState × Bool :=
  let r := accountSweep player_id s.entities s.kills
  ({ s with entities := r.1, kills := r.2 },
    decide (s.entities.length ≠ r.1.length))

/-- The loop of `GameState::lerp_merge` over the entities of the newer
snapshot `b`. -/
def lerpMergeList (a : GameState) (t : ℚ) (ignore : ℕ) :
    GameState → List Entity → GameState
  | res, [] => res
  | res, be :: rest =>
    if be.player_id == ignore then lerpMergeList a t ignore res rest
    else
      match a.find_by_id be.id with
      | some ae =>
        lerpMergeList a t ignore
          (res.add_or_replace_by_id be.id (Entity.lerp ae be t)) rest
      | none =>
        lerpMergeList a t ignore (res.add_or_replace_by_id be.id be) rest

/-- `GameState::lerp_merge`: merge the non-ignored entities of the newer
snapshot `b` into `result`, interpolating with the matching entity of `a`
when one exists. -/
def GameState.lerp_merge (result : GameState) (a b : GameState) (t : ℚ)
    (ignore_with_player_id : ℕ) : GameState :=
  lerpMergeList a t ignore_with_player_id result b.entities

/-! ## Operation sequences for reachability (claim C3) -/

inductive Op where
  | create (info : EntityCreateInfo) (player_id : ℕ)
  | proceed (dt : ℚ)
  | register_kill (id : ℕ)
  | account_kill (player_id : ℕ)

/-- Apply one public `GameState` operation; `none` is a panic. -/
def applyOp (M : MissingOps) (s : GameState) : Op → Option GameState
  | .create info pid => some (s.create info pid)
  | .proceed dt => s.proceed M dt
  | .register_kill id => s.register_kill id
  | .account_kill pid => some (s.account_kill pid).1

/-- Apply a sequence of operations. -/
def applyOps (M : MissingOps) : List Op → GameState → Option GameState
  | [], s => some s
  | op :: rest, s =>
    match applyOp M s op with
    | none => none
    | some s2 => applyOps M rest s2

/-- States reachable from `GameState::new` by any sequence of `create`,
`proceed`, `register_kill` and `account_kill` operations that does not
panic. -/
inductive Reachable (M : MissingOps) : GameState → Prop
  | init : Reachable M GameState.new
  | next (s s2 : GameState) (op : Op) : Reachable M s →
      applyOp M s op = some s2 → Reachable M s2

/-! ## Client reconciliation (src/client/client.rs) -/

structure GameStateQueue where
  prediction : GameState
  last_received : GameState
  penultimate_received : GameState
deriving DecidableEq

structure BroadcastPackage where
  sequence_number : ℕ
  game_state : GameState
deriving DecidableEq

/-- Modelled from the spec: `GameState::find_by_player_id_mut` is called by
the client but defined in a `game.rs` revision not present under `src/`; per
§4.4 it locates the local player's own predicted entity, i.e. the first
entity owned by the player id. -/
def GameState.find_by_player_id (s : GameState) (player_id : ℕ) :
    Option Entity :=
  s.entities.find? fun x => x.player_id == player_id

/-- Replace the first entity whose owner matches. -/
def replaceFirstByPlayerId : List Entity → ℕ → Entity → List Entity
  | [], _, _ => []
  | x :: xs, pid, e =>
    if x.player_id == pid then e :: xs
    else x :: replaceFirstByPlayerId xs pid e

/-- Modelled from the spec: `GameState::add_or_replace_by_player_id`
(missing from `src/` like `find_by_player_id_mut`) splices the saved entity
back, replacing the player's entity if present and appending otherwise. -/
def GameState.add_or_replace_by_player_id (s : GameState) (player_id : ℕ)
    (e : Entity) : GameState :=
  if s.entities.any (fun x => x.player_id == player_id) then
    { s with entities := replaceFirstByPlayerId s.entities player_id e }
  else
    { s with entities := s.entities ++ [e] }

/-- The `Broadcast` branch of `Networker::proceed`: save a copy of the local
player's predicted entity, shift the snapshot queue, install the broadcast
as both `last_received` and `prediction`, and splice the saved entity back
exactly when the echoed sequence number is stale and the copy exists. -/
def processBroadcast (q : GameStateQueue) (player_id : Option ℕ)
    (bp : BroadcastPackage) (last_sequence_number : ℕ) : GameStateQueue :=
  let player_entity_copy :=
    player_id.bind fun id => q.prediction.find_by_player_id id
  let q1 : GameStateQueue :=
    ⟨bp.game_state, bp.game_state, q.last_received⟩
  if bp.sequence_number < last_sequence_number then
    match player_id, player_entity_copy with
    | some pid, some copy =>
      { q1 with
        prediction := q1.prediction.add_or_replace_by_player_id pid copy }
    | _, _ => q1
  else q1

/-- A concrete instantiation of the three missing operations, used only to
evaluate theorems at concrete inputs (all theorems are proved for every
instantiation). -/
def trivialOps : MissingOps :=
  ⟨fun _ => ⟨1, 0⟩, fun c _ => c, fun r _ => r.segments.1.p0⟩

/-- A concrete mine projectile used for witnesses: age 5, velocity 2,
acceleration −3, activation delay 1, life 10. -/
def mineC8 : Entity :=
  ⟨0, 1, 5, ⟨100, 100⟩, ⟨1, 0⟩, ⟨0, 0, 0, 0⟩,
    .Projectile (.Mine 10 0 1 2 (-3) 4 20 8 (.Ball 1 1 1 1 1) 0), 0, none,
    false⟩


/-- Witness data: an entity as the older snapshot `a` knows it. -/
def entA7 : Entity :=
  ⟨7, 1, 0, ⟨0, 0⟩, ⟨1, 0⟩, ⟨0, 0, 0, 0⟩, .Character (.BallGun 1 1 1 1 1 1),
    3, none, false⟩

/-- Witness data: the same entity in the newer snapshot `b`. -/
def entB7 : Entity :=
  ⟨7, 1, 0, ⟨10, 20⟩, ⟨0, 1⟩, ⟨1, 2, 3, 4⟩, .Character (.BallGun 1 1 1 1 1 1),
    2, none, false⟩

/-- Witness data: a second entity only in the newer snapshot. -/
def entB8 : Entity :=
  ⟨8, 2, 0, ⟨5, 5⟩, ⟨1, 0⟩, ⟨0, 0, 0, 0⟩, .Character (.BallGun 1 1 1 1 1 1),
    3, none, false⟩

/-- Witness data: the older snapshot. -/
def gsA : GameState := ⟨[entA7], ⟨32, 48, 736, 536⟩, 9, []⟩

/-- Witness data: the newer snapshot. -/
def gsB : GameState := ⟨[entB7, entB8], ⟨32, 48, 736, 536⟩, 9, []⟩


/-- Scenario data (spec §8): the local player's predicted entity, id 7 at
(10, 10), owned by player 5. -/
def entLocal7 : Entity :=
  ⟨7, 5, 0, ⟨10, 10⟩, ⟨1, 0⟩, ⟨0, 0, 0, 0⟩, .Character (.BallGun 1 1 1 1 1 1),
    3, none, false⟩

/-- Scenario data: the stale server copy of the same entity at (0, 0). -/
def entSrv7 : Entity :=
  ⟨7, 5, 0, ⟨0, 0⟩, ⟨1, 0⟩, ⟨0, 0, 0, 0⟩, .Character (.BallGun 1 1 1 1 1 1),
    3, none, false⟩

/-- Scenario data: another player's entity, id 8 at (5, 5). -/
def entSrv8 : Entity :=
  ⟨8, 6, 0, ⟨5, 5⟩, ⟨1, 0⟩, ⟨0, 0, 0, 0⟩, .Character (.BallGun 1 1 1 1 1 1),
    3, none, false⟩

/-- Scenario data: the client's prediction before the broadcast. -/
def predGS : GameState := ⟨[entLocal7], ⟨32, 48, 736, 536⟩, 9, []⟩

/-- Scenario data: the server's broadcast state. -/
def srvGS : GameState := ⟨[entSrv7, entSrv8], ⟨32, 48, 736, 536⟩, 9, []⟩

/-- Scenario data: the client's snapshot queue before the broadcast. -/
def queueC5 : GameStateQueue := ⟨predGS, GameState.new, GameState.new⟩


/-- The degenerate default segment (used only as an out-of-range `getD`
default; all accesses below are in range). -/
def segDefault : Segment := ⟨⟨0, 0⟩, ⟨0, 0⟩⟩

/-- The scalars `Segment::ray_cast` always returns (the function is total). -/
def rayScalars (s rhs : Segment) : RayCastScalars :=
  ⟨(s, rhs),
    Vector.cross (rhs.p0.sub s.p0) (rhs.p1.sub rhs.p0) /
      Vector.cross (s.p1.sub s.p0) (rhs.p1.sub rhs.p0),
    Vector.cross (rhs.p0.sub s.p0) (s.p1.sub s.p0) /
      Vector.cross (s.p1.sub s.p0) (rhs.p1.sub rhs.p0)⟩

/-- Modelled from the spec: the "99 % along" snap point the spec attributes
to world-bound reflection — the point 99 % of the way along the motion
segment toward the crossing (`intersection_point_u_mul(0.99)` itself lives
in the source file missing from `src/`; the spec describes the snap as
stopping short of the intersection so the next tick does not re-collide). -/
def specPoint99 (r : RayCastScalars) : Point :=
  r.segments.2.p0.addV
    (Vector.smul (r.u * (99 / 100)) (r.segments.2.p1.sub r.segments.2.p0))


/-- The `i`-th entry of `Rect::edges` (edge 0 is the top edge, 1 the right,
2 the bottom, 3 the left). -/
def boundEdge (bounds : Rect) : ℕ → Segment
  | 0 => ⟨⟨bounds.x, bounds.y⟩, ⟨bounds.x + bounds.w, bounds.y⟩⟩
  | 1 => ⟨⟨bounds.x + bounds.w, bounds.y⟩,
      ⟨bounds.x + bounds.w, bounds.y + bounds.h⟩⟩
  | 2 => ⟨⟨bounds.x + bounds.w, bounds.y + bounds.h⟩,
      ⟨bounds.x, bounds.y + bounds.h⟩⟩
  | 3 => ⟨⟨bounds.x, bounds.y + bounds.h⟩, ⟨bounds.x, bounds.y⟩⟩
  | _ => segDefault



/-- The candidate separating axes of `collide`: the normalized left
perpendicular of every edge of both shapes. -/
def collideAxes (s rhs : List Segment) : List Vector :=
  (s ++ rhs).map fun x => x.vec.left_perpendicular.normalize

/-- The exit vector `collide` computes for one axis (`none` when the shapes
have a gap on the axis or a shape is empty). -/
def axisExit (s rhs : List Segment) (axis : Vector) : Option Vector :=
  match projShape axis s, projShape axis rhs with
  | some proj0, some proj1 =>
    proj0.exit_vec_while_intersects_on_the_same_line proj1
  | _, _ => none


/-- Witness data: a character with one health point at the origin. -/
def charC2 : Entity :=
  ⟨1, 1, 0, ⟨0, 0⟩, ⟨1, 0⟩, ⟨0, 0, 0, 0⟩, .Character (.BallGun 1 1 1 1 1 1),
    1, none, false⟩

/-- Witness data: an enemy ball with one health point, radius 4, at (3, 4)
(distance 5 from the character). -/
def ballC2 : Entity :=
  ⟨2, 2, 5, ⟨3, 4⟩, ⟨1, 0⟩, ⟨0, 0, 0, 0⟩,
    .Projectile (.Ball 10 1 1 1 4), 1, none, false⟩


/-- The id invariant behind claim C3: entity ids are pairwise distinct and
all lie below the `next_entity_id` counter. -/
def IdInv (s : GameState) : Prop :=
  (s.entities.map Entity.id).Nodup ∧
    ∀ e ∈ s.entities, e.id < s.next_entity_id

/-- Create-info for a stationary ball-gun character at (100, 100). -/
def c3CharInfo : EntityCreateInfo :=
  ⟨⟨100, 100⟩, ⟨1, 0⟩, ⟨0, 0, 0, 0⟩, .Character (.BallGun 1 1 1 1 1 1), none⟩

/-- Create-info for an immobile mine at (100, 100): life 100, no owner
invincibility, no activation delay, zero velocity and acceleration, radius 1,
detection radius 0, explosion radius 50, and no debris. -/
def c3MineInfo : EntityCreateInfo :=
  ⟨⟨100, 100⟩, ⟨1, 0⟩, ⟨0, 0, 0, 0⟩,
    .Projectile (.Mine 100 0 0 0 0 1 0 50 (.Ball 1 1 1 1 1) 0), none⟩

/-- Three characters of three players standing on an enemy mine, then one
tick. -/
def c3Ops : List Op :=
  [.create c3CharInfo 1, .create c3CharInfo 2, .create c3CharInfo 3,
   .create c3MineInfo 4, .proceed 1]

/-- The state reached by `c3Ops` from the fresh state. -/
def c3State : GameState :=
  (applyOps trivialOps c3Ops GameState.new).getD GameState.new

/-! ## Theorems -/

theorem fromBE32_toBE32 (n : ℕ) (h : n < 2 ^ 32) : fromBE32 (toBE32 n) = n := by
  simp only [toBE32, fromBE32]
  omega

theorem toBE32_length (n : ℕ) : (toBE32 n).length = 4 := rfl

theorem drainPackets_short {buffer : List ℕ} (h : buffer.length < 4) :
    drainPackets buffer = ([], buffer) := by
  rw [drainPackets]
  rw [dif_neg (show ¬ 4 ≤ buffer.length by omega)]

theorem drainPackets_incomplete {buffer : List ℕ} (h4 : 4 ≤ buffer.length)
    (h : buffer.length < 4 + fromBE32 (buffer.take 4)) :
    drainPackets buffer = ([], buffer) := by
  rw [drainPackets]
  rw [dif_pos h4,
    dif_neg (show ¬ 4 + fromBE32 (buffer.take 4) ≤ buffer.length by omega)]

theorem drainPackets_step {buffer : List ℕ} (h4 : 4 ≤ buffer.length)
    (hsz : 4 + fromBE32 (buffer.take 4) ≤ buffer.length) :
    drainPackets buffer =
      (((buffer.drop 4).take (fromBE32 (buffer.take 4)) ::
          (drainPackets (buffer.drop (4 + fromBE32 (buffer.take 4)))).1),
        (drainPackets (buffer.drop (4 + fromBE32 (buffer.take 4)))).2) := by
  rw [drainPackets]
  simp only [dif_pos h4, dif_pos hsz]

theorem drainPackets_nil : drainPackets [] = ([], []) := by
  apply drainPackets_short; simp

/-- Decoding a full frame at the head of the buffer yields its payload and
continues on the rest. -/
theorem drainPackets_frame (data rest : List ℕ) (h : data.length < 2 ^ 32) :
    drainPackets (PacketWriter.write data ++ rest) =
      ((data :: (drainPackets rest).1), (drainPackets rest).2) := by
  have hbuf : PacketWriter.write data ++ rest =
      toBE32 data.length ++ (data ++ rest) := by
    simp [PacketWriter.write]
  have hlen : (PacketWriter.write data ++ rest).length =
      4 + data.length + rest.length := by
    simp [PacketWriter.write, toBE32]
    omega
  have htake : (PacketWriter.write data ++ rest).take 4 = toBE32 data.length := by
    rw [hbuf, List.take_append_of_le_length (by simp [toBE32_length])]
    simp [toBE32]
  have hsize : fromBE32 ((PacketWriter.write data ++ rest).take 4) =
      data.length := by
    rw [htake, fromBE32_toBE32 _ h]
  have hdrop4 : (PacketWriter.write data ++ rest).drop 4 = data ++ rest := by
    rw [hbuf, List.drop_append_of_le_length (by simp [toBE32_length])]
    simp [toBE32]
  have hrest : (PacketWriter.write data ++ rest).drop (4 + data.length) = rest := by
    have h1 : PacketWriter.write data ++ rest =
        (toBE32 data.length ++ data) ++ rest := by
      simp [PacketWriter.write]
    have h2 : (4 : ℕ) + data.length = (toBE32 data.length ++ data).length := by
      simp [toBE32]
      omega
    rw [h1, h2, List.drop_left]
  rw [drainPackets_step (by omega) (by rw [hsize]; omega)]
  rw [hsize, hdrop4, hrest]
  have hpay : (data ++ rest).take data.length = data := List.take_left data rest
  rw [hpay]

/-- Decoding a whole encoded stream followed by `rest` yields all payloads and
then decodes `rest`. -/
theorem drainPackets_encodeStream (payloads : List (List ℕ)) (rest : List ℕ)
    (h : ∀ p ∈ payloads, p.length < 2 ^ 32) :
    drainPackets (encodeStream payloads ++ rest) =
      (payloads ++ (drainPackets rest).1, (drainPackets rest).2) := by
  induction payloads with
  | nil => simp [encodeStream]
  | cons p ps ih =>
    have hps : ∀ q ∈ ps, q.length < 2 ^ 32 := fun q hq => h q (by simp [hq])
    have hstream : encodeStream (p :: ps) ++ rest =
        PacketWriter.write p ++ (encodeStream ps ++ rest) := by
      simp [encodeStream]
    rw [hstream, drainPackets_frame _ _ (h p (by simp)), ih hps]
    simp

/-- Feeding extra bytes after the fact: the packets already decodable stay
decoded the same way, and decoding continues from the leftover buffer. -/
theorem drainPackets_append (b c : List ℕ) :
    drainPackets (b ++ c) =
      ((drainPackets b).1 ++ (drainPackets ((drainPackets b).2 ++ c)).1,
        (drainPackets ((drainPackets b).2 ++ c)).2) := by
  generalize hn : b.length = n
  induction n using Nat.strong_induction_on generalizing b with
  | _ n ih =>
    subst hn
    by_cases h4 : 4 ≤ b.length
    · by_cases hsz : 4 + fromBE32 (b.take 4) ≤ b.length
      · have htake : (b ++ c).take 4 = b.take 4 :=
          List.take_append_of_le_length h4
        have hdrop4 : (b ++ c).drop 4 = b.drop 4 ++ c :=
          List.drop_append_of_le_length h4
        have hlen : 4 ≤ (b ++ c).length := by simp; omega
        have hsz2 : 4 + fromBE32 ((b ++ c).take 4) ≤ (b ++ c).length := by
          rw [htake]; simp; omega
        have hpay : ((b ++ c).drop 4).take (fromBE32 ((b ++ c).take 4)) =
            (b.drop 4).take (fromBE32 (b.take 4)) := by
          rw [htake, hdrop4]
          exact List.take_append_of_le_length (by simp; omega)
        have hrest : (b ++ c).drop (4 + fromBE32 ((b ++ c).take 4)) =
            b.drop (4 + fromBE32 (b.take 4)) ++ c := by
          rw [htake]
          exact List.drop_append_of_le_length hsz
        rw [drainPackets_step hlen hsz2, drainPackets_step h4 hsz,
          hpay, hrest]
        have hlt : (b.drop (4 + fromBE32 (b.take 4))).length < b.length := by
          simp only [List.length_drop]; omega
        rw [ih _ hlt _ rfl]
        simp
      · have hb : drainPackets b = ([], b) := drainPackets_incomplete h4 (by omega)
        rw [hb]
        simp
    · have hb : drainPackets b = ([], b) := drainPackets_short (by omega)
      rw [hb]
      simp

/-- The leftover buffer after draining is always a stuck partial frame:
draining it again yields nothing. -/
theorem drainPackets_snd_stuck (b : List ℕ) :
    drainPackets (drainPackets b).2 = ([], (drainPackets b).2) := by
  generalize hn : b.length = n
  induction n using Nat.strong_induction_on generalizing b with
  | _ n ih =>
    subst hn
    by_cases h4 : 4 ≤ b.length
    · by_cases hsz : 4 + fromBE32 (b.take 4) ≤ b.length
      · rw [drainPackets_step h4 hsz]
        exact ih _ (by simp only [List.length_drop]; omega) _ rfl
      · have hb : drainPackets b = ([], b) := drainPackets_incomplete h4 (by omega)
        rw [hb]
        show drainPackets b = ([], b)
        exact hb
    · have hb : drainPackets b = ([], b) := drainPackets_short (by omega)
      rw [hb]
      show drainPackets b = ([], b)
      exact hb

/-- Chunked reads starting from a stuck buffer behave exactly like one big
read of all the bytes. -/
theorem processChunks_eq_drain (cs : List (List ℕ)) (b : List ℕ)
    (hb : drainPackets b = ([], b)) :
    processChunks b cs = drainPackets (b ++ cs.flatten) := by
  induction cs generalizing b with
  | nil => simp [processChunks, hb]
  | cons c cs ih =>
    have hflat : b ++ (c :: cs).flatten = (b ++ c) ++ cs.flatten := by simp
    rw [hflat, drainPackets_append (b ++ c) cs.flatten]
    have hstuck : drainPackets (drainPackets (b ++ c)).2 =
        ([], (drainPackets (b ++ c)).2) := drainPackets_snd_stuck (b ++ c)
    rw [processChunks, ih _ hstuck]

/-- C1.  Packet framing round-trip: writing any sequence of payloads with
`PacketWriter::write` and feeding the concatenated bytes to a fresh
`PacketReader` in any chunking across any number of read calls yields exactly
the original payloads in order with an empty final buffer; and a buffer that
holds only a partial frame (fewer than 4 header bytes, or fewer payload bytes
than the decoded u32 big-endian length) yields zero payloads and keeps all
its bytes buffered. -/
theorem C1_packet_framing_roundtrip (payloads chunks : List (List ℕ))
    (hlens : ∀ p ∈ payloads, p.length < 2 ^ 32)
    (hch : chunks.flatten = encodeStream payloads) :
    processChunks [] chunks = (payloads, []) ∧
    (∀ buffer : List ℕ,
      buffer.length < 4 ∨ buffer.length < 4 + fromBE32 (buffer.take 4) →
        drainPackets buffer = ([], buffer)) := by
  constructor
  · rw [processChunks_eq_drain _ _ drainPackets_nil]
    simp only [List.nil_append, hch]
    have := drainPackets_encodeStream payloads [] hlens
    simpa [drainPackets_nil] using this
  · intro buffer hpart
    by_cases h4 : 4 ≤ buffer.length
    · exact drainPackets_incomplete h4 (by omega)
    · exact drainPackets_short (by omega)

/-- C1 witness: three concrete frames, delivered in chunks that split headers
and payloads across read calls, decode back to the original payloads; a
three-byte buffer and a buffer whose frame is one byte short both stay
buffered and yield nothing. -/
theorem C1_packet_framing_roundtrip_witness :
    processChunks [] [[0, 0, 0], [2, 7], [8, 0, 0, 0], [1, 9], [0, 0, 0, 0]] =
      ([[7, 8], [9], []], []) ∧
    drainPackets [0, 0, 0] = ([], [0, 0, 0]) ∧
    drainPackets [0, 0, 0, 2, 7] = ([], [0, 0, 0, 2, 7]) := by
  have h := C1_packet_framing_roundtrip [[7, 8], [9], []]
    [[0, 0, 0], [2, 7], [8, 0, 0, 0], [1, 9], [0, 0, 0, 0]]
    (by decide) (by decide)
  refine ⟨h.1, h.2 [0, 0, 0] (Or.inl (by decide)), h.2 [0, 0, 0, 2, 7] ?_⟩
  right
  decide

/-- Edge index 0–3 always has a rotation update; anything else is the
`panic!` arm. -/
theorem reflectRotAtEdge_isSome (i : ℕ) (rot : Complex) (h : i < 4) :
    (reflectRotAtEdge i rot).isSome := by
  match i, h with
  | 0, _ => rfl
  | 1, _ => rfl
  | 2, _ => rfl
  | 3, _ => rfl

theorem reflectBoundLoop_isSome (rot : Complex) (edges : List (ℕ × Segment))
    (motion : Segment) (h : ∀ p ∈ edges, p.1 < 4) :
    (reflectBoundLoop rot edges motion).isSome := by
  induction edges with
  | nil => rfl
  | cons e rest ih =>
    obtain ⟨i, edge⟩ := e
    have hi : i < 4 := h (i, edge) (by simp)
    have hrest : ∀ p ∈ rest, p.1 < 4 := fun p hp => h p (by simp [hp])
    simp only [reflectBoundLoop, Segment.ray_cast]
    split
    · cases hrot : reflectRotAtEdge i rot with
      | none => exact absurd (reflectRotAtEdge_isSome i rot hi) (by simp [hrot])
      | some r2 => simp
    · exact ih hrest

theorem enumList_lt {α : Type} (l : List α) (n : ℕ) :
    ∀ p ∈ enumList l n, p.1 < n + l.length := by
  induction l generalizing n with
  | nil => simp [enumList]
  | cons x xs ih =>
    intro p hp
    simp only [enumList, List.mem_cons] at hp
    rcases hp with h | h
    · subst h; simp
    · have := ih (n + 1) p h
      simp at this ⊢
      omega

/-- `GameState::reflect` never reaches the `panic!` arm: a rectangle has
exactly four edges. -/
theorem reflect_isSome (M : MissingOps) (pos : Point) (rot : Complex)
    (bounds : Rect) (shields : List Segment) (motion : Segment) :
    (GameState.reflect M pos rot bounds shields motion).isSome := by
  unfold GameState.reflect
  cases hs : reflectShieldLoop M rot shields motion with
  | some pr => obtain ⟨p, r2⟩ := pr; simp
  | none =>
    have h4 : ∀ p ∈ enumList bounds.edges 0, p.1 < 4 := by
      have := enumList_lt bounds.edges 0
      simpa [Rect.edges] using this
    cases hb : reflectBoundLoop rot (enumList bounds.edges 0) motion with
    | none =>
      exact absurd (reflectBoundLoop_isSome rot _ motion h4) (by simp [hb])
    | some o =>
      cases o with
      | none => simp
      | some pr => obtain ⟨p, r2⟩ := pr; simp

/-- The `step` helper never panics. -/
theorem step_isSome (M : MissingOps) (pos : Point) (rot : Complex)
    (rps : Option (List Point)) (tail : Bool) (bounds : Rect)
    (shields : List Segment) (velosity dt : ℚ) :
    (step M pos rot rps tail bounds shields velosity dt).isSome := by
  have h := reflect_isSome M pos rot bounds shields
    ⟨pos, pos.addV (Vector.polar rot (velosity * 2 * dt))⟩
  cases hre : GameState.reflect M pos rot bounds shields
      ⟨pos, pos.addV (Vector.polar rot (velosity * 2 * dt))⟩ with
  | none => rw [hre] at h; simp at h
  | some v =>
    obtain ⟨p, r2, reflected⟩ := v
    cases reflected <;> simp [step, hre]

/-- `signumQ` agreement is exactly agreement of the sign class. -/
theorem signumQ_eq_iff (a b : ℚ) :
    (signumQ a = signumQ b) ↔ ((a < 0) ↔ (b < 0)) := by
  unfold signumQ
  split_ifs with ha hb hb <;> constructor <;> intro h <;> tauto

/-- C8.  In the mine branch of the advance pass of `GameState::proceed`, the
stored velocity is replaced by `velocity + acceleration * dt` exactly when
the new value has the same `f32::signum` as the old one — so the velocity
never changes sign class (a decelerating mine freezes rather than reversing
through zero) — and the `activated` flag becomes true exactly when the
mine's elapsed age exceeds the activation delay (ages are advanced by `dt`
before this branch runs). -/
theorem C8_mine_velocity_sign_and_activation
    (M : MissingOps) (bounds : Rect) (shields : List Segment) (dt : ℚ)
    (e : Entity) (life inv activation vel acc radius det expl : ℚ)
    (dkind : ProjectileKind) (dcount : ℕ)
    (hrole : e.role = .Projectile (.Mine life inv activation vel acc radius
      det expl dkind dcount)) :
    ∃ e2 keep, advanceEntity M bounds shields dt e = some (e2, keep) ∧
      e2.role = .Projectile (.Mine life inv activation
        (if signumQ vel = signumQ (vel + acc * dt) then vel + acc * dt
          else vel) acc radius det expl dkind dcount) ∧
      e2.activated = decide (activation < e.age) ∧
      keep = decide (e.age < life) ∧
      ((if signumQ vel = signumQ (vel + acc * dt) then vel + acc * dt
          else vel) = vel + acc * dt ∨
        (if signumQ vel = signumQ (vel + acc * dt) then vel + acc * dt
          else vel) = vel) ∧
      (signumQ vel = signumQ (vel + acc * dt) →
        (if signumQ vel = signumQ (vel + acc * dt) then vel + acc * dt
          else vel) = vel + acc * dt) ∧
      (0 ≤ vel → 0 ≤ (if signumQ vel = signumQ (vel + acc * dt) then
        vel + acc * dt else vel)) ∧
      (vel < 0 → (if signumQ vel = signumQ (vel + acc * dt) then
        vel + acc * dt else vel) < 0) := by
  have hstep := step_isSome M e.pos e.rot none false bounds shields vel dt
  cases hs : step M e.pos e.rot none false bounds shields vel dt with
  | none => rw [hs] at hstep; simp at hstep
  | some v =>
    obtain ⟨pos1, rot1, rps1⟩ := v
    refine ⟨{ e with
                pos := pos1
                rot := rot1
                activated := decide (activation < e.age)
                role := .Projectile (.Mine life inv activation
                  (if signumQ vel = signumQ (vel + acc * dt) then
                    vel + acc * dt else vel) acc radius det expl dkind
                  dcount) },
      decide (e.age < life), ?_, ?_, ?_, ?_, ?_, ?_, ?_, ?_⟩
    · simp only [advanceEntity, hrole, ProjectileKind.velocity, hs]
    · simp
    · simp
    · simp
    · split <;> simp
    · intro h; simp [h]
    · intro h
      split
      · next hsg =>
        rw [signumQ_eq_iff] at hsg
        by_contra hneg
        push_neg at hneg
        exact absurd (hsg.mpr hneg) (by linarith)
      · exact h
    · intro h
      split
      · next hsg =>
        rw [signumQ_eq_iff] at hsg
        exact hsg.mp h
      · exact h

/-- C8 witness: a concrete decelerating mine (velocity 2, acceleration −3,
dt 1) keeps its old velocity because the sign would flip, and is activated
since its age 5 exceeds the delay 1. -/
theorem C8_mine_witness :
    ∃ e2 keep,
      advanceEntity trivialOps ⟨0, 0, 800, 600⟩ [] 1 mineC8 =
        some (e2, keep) ∧
      e2.role = .Projectile (.Mine 10 0 1
        (if signumQ (2 : ℚ) = signumQ ((2 : ℚ) + -3 * 1) then
          (2 : ℚ) + -3 * 1 else (2 : ℚ))
        (-3) 4 20 8 (.Ball 1 1 1 1 1) 0) ∧
      e2.activated = decide ((1 : ℚ) < mineC8.age) ∧
      keep = decide (mineC8.age < 10) ∧
      ((if signumQ (2 : ℚ) = signumQ ((2 : ℚ) + -3 * 1) then
          (2 : ℚ) + -3 * 1 else (2 : ℚ)) = (2 : ℚ) + -3 * 1 ∨
        (if signumQ (2 : ℚ) = signumQ ((2 : ℚ) + -3 * 1) then
          (2 : ℚ) + -3 * 1 else (2 : ℚ)) = (2 : ℚ)) ∧
      (signumQ (2 : ℚ) = signumQ ((2 : ℚ) + -3 * 1) →
        (if signumQ (2 : ℚ) = signumQ ((2 : ℚ) + -3 * 1) then
          (2 : ℚ) + -3 * 1 else (2 : ℚ)) = (2 : ℚ) + -3 * 1) ∧
      ((0 : ℚ) ≤ (2 : ℚ) → (0 : ℚ) ≤
        (if signumQ (2 : ℚ) = signumQ ((2 : ℚ) + -3 * 1) then
          (2 : ℚ) + -3 * 1 else (2 : ℚ))) ∧
      ((2 : ℚ) < 0 →
        (if signumQ (2 : ℚ) = signumQ ((2 : ℚ) + -3 * 1) then
          (2 : ℚ) + -3 * 1 else (2 : ℚ)) < 0) :=
  C8_mine_velocity_sign_and_activation trivialOps ⟨0, 0, 800, 600⟩ [] 1
    mineC8 10 0 1 2 (-3) 4 20 8 (.Ball 1 1 1 1 1) 0 (by rfl)

/-- A nonfinite scalar fails both strict bounds `0 < v < 1`. -/
theorem ltB_bounds_false (v : FVal) (h : v.isNanOrInf = true) :
    (FVal.ltB (.fin 0) v && FVal.ltB v (.fin 1)) = false := by
  cases v <;> simp_all [FVal.isNanOrInf, FVal.ltB]

/-- A nonfinite scalar fails both closed bounds `0 ≤ v ≤ 1`. -/
theorem leB_bounds_false (v : FVal) (h : v.isNanOrInf = true) :
    (FVal.leB (.fin 0) v && FVal.leB v (.fin 1)) = false := by
  cases v <;> simp_all [FVal.isNanOrInf, FVal.leB]

/-- Division of a finite value by zero is NaN or a signed infinity. -/
theorem fdiv_zero_isNanOrInf (a : ℚ) : (fdiv a 0).isNanOrInf = true := by
  unfold fdiv
  rw [if_pos rfl]
  split_ifs <;> rfl

/-- C9.  `Segment::ray_cast` is total (it always returns `Some` scalars and
has no panic or error branch), and whenever the cross product of the two
segments' direction vectors is zero (parallel or degenerate segments) the
IEEE scalars `t`, `u` are NaN or infinite, so both `intersects` and
`intersects_including` return `false`; the rational embedding used inside
`GameState::reflect` likewise reports no strict intersection there. -/
theorem C9_ray_cast_total_and_parallel_safe (s rhs : Segment)
    (h : Vector.cross (s.p1.sub s.p0) (rhs.p1.sub rhs.p0) = 0) :
    (s.ray_castF rhs).isSome = true ∧
    (∃ r, s.ray_castF rhs = some r ∧
      r.t.isNanOrInf = true ∧ r.u.isNanOrInf = true ∧
      r.intersects = false ∧ r.intersects_including = false) ∧
    (∃ rq, s.ray_cast rhs = some rq ∧ rq.intersects = false) := by
  have hcd : Vector.cross (s.p1.sub s.p0) (rhs.p1.sub rhs.p0) = 0 := h
  refine ⟨rfl, ⟨⟨(s, rhs),
      fdiv (Vector.cross (rhs.p0.sub s.p0) (rhs.p1.sub rhs.p0))
        (Vector.cross (s.p1.sub s.p0) (rhs.p1.sub rhs.p0)),
      fdiv (Vector.cross (rhs.p0.sub s.p0) (s.p1.sub s.p0))
        (Vector.cross (s.p1.sub s.p0) (rhs.p1.sub rhs.p0))⟩,
    rfl, ?_, ?_, ?_, ?_⟩, ⟨⟨(s, rhs),
      Vector.cross (rhs.p0.sub s.p0) (rhs.p1.sub rhs.p0) /
        Vector.cross (s.p1.sub s.p0) (rhs.p1.sub rhs.p0),
      Vector.cross (rhs.p0.sub s.p0) (s.p1.sub s.p0) /
        Vector.cross (s.p1.sub s.p0) (rhs.p1.sub rhs.p0)⟩, rfl, ?_⟩⟩
  · rw [hcd]; exact fdiv_zero_isNanOrInf _
  · rw [hcd]; exact fdiv_zero_isNanOrInf _
  · show (RayCastScalarsF.intersects _) = false
    unfold RayCastScalarsF.intersects
    simp only
    rw [Bool.and_assoc, Bool.and_assoc]
    rw [← Bool.and_assoc (FVal.ltB (.fin 0) _)]
    rw [ltB_bounds_false _ (by rw [hcd]; exact fdiv_zero_isNanOrInf _)]
    simp
  · show (RayCastScalarsF.intersects_including _) = false
    unfold RayCastScalarsF.intersects_including
    simp only
    rw [Bool.and_assoc, Bool.and_assoc]
    rw [← Bool.and_assoc (FVal.leB (.fin 0) _)]
    rw [leB_bounds_false _ (by rw [hcd]; exact fdiv_zero_isNanOrInf _)]
    simp
  · show (RayCastScalars.intersects _) = false
    unfold RayCastScalars.intersects
    simp only [hcd]
    simp

/-- C9 witness: two horizontal parallel segments have a zero direction cross
product; ray casting them yields nonfinite scalars and no intersection. -/
theorem C9_ray_cast_witness :
    ((⟨⟨0, 0⟩, ⟨1, 0⟩⟩ : Segment).ray_castF ⟨⟨0, 1⟩, ⟨1, 1⟩⟩).isSome = true ∧
    (∃ r, (⟨⟨0, 0⟩, ⟨1, 0⟩⟩ : Segment).ray_castF ⟨⟨0, 1⟩, ⟨1, 1⟩⟩ = some r ∧
      r.t.isNanOrInf = true ∧ r.u.isNanOrInf = true ∧
      r.intersects = false ∧ r.intersects_including = false) ∧
    (∃ rq, (⟨⟨0, 0⟩, ⟨1, 0⟩⟩ : Segment).ray_cast ⟨⟨0, 1⟩, ⟨1, 1⟩⟩ = some rq ∧
      rq.intersects = false) :=
  C9_ray_cast_total_and_parallel_safe ⟨⟨0, 0⟩, ⟨1, 0⟩⟩ ⟨⟨0, 1⟩, ⟨1, 1⟩⟩
    (by with_unfolding_all decide)

/-- Replacing the first entity with a given id keeps the list length. -/
theorem replaceFirstById_length (l : List Entity) (n : ℕ) (e : Entity) :
    (replaceFirstById l n e).length = l.length := by
  induction l with
  | nil => rfl
  | cons x xs ih =>
    unfold replaceFirstById
    split <;> simp [ih]

/-- After replacing the first entity with id `n` by `e` (with `e.id = n`),
looking the id up finds `e`. -/
theorem find_replaceFirstById (l : List Entity) (n : ℕ) (e : Entity)
    (hfound : (l.find? fun x => x.id == n).isSome) (he : e.id = n) :
    ((replaceFirstById l n e).find? fun x => x.id == n) = some e := by
  induction l with
  | nil => simp at hfound
  | cons x xs ih =>
    by_cases hx : x.id = n
    · simp [replaceFirstById, hx, List.find?, he]
    · rw [List.find?_cons_of_neg _ (by simp [hx])] at hfound
      unfold replaceFirstById
      rw [if_neg (by simp [hx])]
      rw [List.find?_cons_of_neg _ (by simp [hx])]
      exact ih hfound

/-- Replacing an entity with a different id does not change a lookup. -/
theorem find_replaceFirstById_ne (l : List Entity) (m n : ℕ) (e : Entity)
    (hmn : m ≠ n) (he : e.id = m) :
    ((replaceFirstById l m e).find? fun x => x.id == n) =
      l.find? fun x => x.id == n := by
  induction l with
  | nil => rfl
  | cons x xs ih =>
    by_cases hx : x.id = m
    · unfold replaceFirstById
      rw [if_pos (by simp [hx])]
      rw [List.find?_cons_of_neg _ (by simp [he, hmn])]
      rw [List.find?_cons_of_neg _ (by simp [hx]; omega)]
    · unfold replaceFirstById
      rw [if_neg (by simp [hx])]
      by_cases hxn : x.id = n
      · rw [List.find?_cons_of_pos _ (by simp [hxn])]
        rw [List.find?_cons_of_pos _ (by simp [hxn])]
      · rw [List.find?_cons_of_neg _ (by simp [hxn])]
        rw [List.find?_cons_of_neg _ (by simp [hxn])]
        exact ih

/-- `add_or_replace_by_id` makes the id look up to the new entity. -/
theorem find_by_id_add_or_replace_self (s : GameState) (n : ℕ) (e : Entity)
    (he : e.id = n) :
    (s.add_or_replace_by_id n e).find_by_id n = some e := by
  unfold GameState.add_or_replace_by_id GameState.find_by_id
  split
  · next hany =>
    refine find_replaceFirstById _ _ _ (List.find?_isSome.mpr ?_) he
    simpa using hany
  · next hany =>
    simp only
    rw [List.find?_append]
    have hany2 : ∀ x ∈ s.entities, ¬ x.id = n := by simpa using hany
    have hnone : (s.entities.find? fun x => x.id == n) = none := by
      rw [List.find?_eq_none]
      intro x hx
      simp
      exact hany2 x hx
    rw [hnone]
    simp [List.find?, he]

/-- `add_or_replace_by_id` with one id does not change the lookup of a
different id. -/
theorem find_by_id_add_or_replace_ne (s : GameState) (m n : ℕ) (e : Entity)
    (hmn : m ≠ n) (he : e.id = m) :
    (s.add_or_replace_by_id m e).find_by_id n = s.find_by_id n := by
  unfold GameState.add_or_replace_by_id GameState.find_by_id
  split
  · exact find_replaceFirstById_ne _ _ _ _ hmn he
  · simp only
    rw [List.find?_append]
    cases hf : s.entities.find? fun x => x.id == n with
    | some x => rfl
    | none =>
      have hmn2 : (m == n) = false := by simp [hmn]
      simp [List.find?, he, hmn2]

/-- Interpolated entities keep the id of the newer snapshot's entity. -/
theorem Entity.lerp_id (a b : Entity) (t : ℚ) : (Entity.lerp a b t).id = b.id :=
  rfl

/-- Merging entities none of which carries id `n` leaves the lookup of `n`
unchanged. -/
theorem lerpMergeList_find_preserved (a : GameState) (t : ℚ) (ignore : ℕ)
    (res : GameState) (bs : List Entity) (n : ℕ)
    (h : ∀ x ∈ bs, x.id ≠ n) :
    (lerpMergeList a t ignore res bs).find_by_id n = res.find_by_id n := by
  induction bs generalizing res with
  | nil => rfl
  | cons be rest ih =>
    have hbe : be.id ≠ n := h be (by simp)
    have hrest : ∀ x ∈ rest, x.id ≠ n := fun x hx => h x (by simp [hx])
    unfold lerpMergeList
    split
    · exact ih res hrest
    · cases hf : a.find_by_id be.id with
      | some ae =>
        rw [ih _ hrest,
          find_by_id_add_or_replace_ne _ _ _ _ hbe (Entity.lerp_id ae be t)]
      | none =>
        rw [ih _ hrest, find_by_id_add_or_replace_ne _ _ _ _ hbe rfl]

/-- The merge loop writes the interpolated entity for any non-ignored entity
of `b` whose id also occurs in `a`, and (given `b`'s ids are distinct) the
final lookup still sees it. -/
theorem lerpMergeList_find (a : GameState) (t : ℚ) (ignore : ℕ)
    (res : GameState) (bs : List Entity) (e ae : Entity)
    (hmem : e ∈ bs) (hne : e.player_id ≠ ignore)
    (hnodup : (bs.map Entity.id).Nodup)
    (ha : a.find_by_id e.id = some ae) :
    (lerpMergeList a t ignore res bs).find_by_id e.id =
      some (Entity.lerp ae e t) := by
  induction bs generalizing res with
  | nil => simp at hmem
  | cons be rest ih =>
    rcases List.mem_cons.mp hmem with heq | hmem2
    · subst heq
      unfold lerpMergeList
      rw [if_neg (by simp [hne]), ha]
      simp only
      obtain ⟨hhead, htail⟩ :
          (∀ x ∈ rest, ¬ x.id = e.id) ∧ (rest.map Entity.id).Nodup := by
        simpa using hnodup
      have hrest : ∀ x ∈ rest, x.id ≠ e.id := fun x hx => hhead x hx
      rw [lerpMergeList_find_preserved _ _ _ _ _ _ hrest]
      exact find_by_id_add_or_replace_self _ _ _ (Entity.lerp_id ae e t)
    · obtain ⟨hhead, htail⟩ :
          (∀ x ∈ rest, ¬ x.id = be.id) ∧ (rest.map Entity.id).Nodup := by
        simpa using hnodup
      have hbe_ne : be.id ≠ e.id := fun h => hhead e hmem2 h.symm
      have hnodup2 : (rest.map Entity.id).Nodup := htail
      unfold lerpMergeList
      split
      · exact ih res hmem2 hnodup2
      · cases hf : a.find_by_id be.id with
        | some ae2 => exact ih _ hmem2 hnodup2
        | none => exact ih _ hmem2 hnodup2

theorem lerp_f32_zero (a b : ℚ) : lerp_f32 a b 0 = a := by
  unfold lerp_f32; ring

theorem lerp_f32_one (a b : ℚ) : lerp_f32 a b 1 = b := by
  unfold lerp_f32; ring

theorem Point.lerp_zero (a b : Point) : Point.lerp a b 0 = a := by
  cases a; simp [Point.lerp, lerp_f32_zero]

theorem Point.lerp_one_pos (a b : Point) : Point.lerp a b 1 = b := by
  cases b; simp [Point.lerp, lerp_f32_one]

theorem Complex.lerp_one_rot (a b : Complex) : Complex.lerp a b 1 = b := by
  cases b; simp [Complex.lerp, lerp_f32_one]

/-- At `t = 0` the interpolated entity sits at the old entity's position. -/
theorem Entity.lerp_zero_pos (a b : Entity) : (Entity.lerp a b 0).pos = a.pos := by
  simp [Entity.lerp, Point.lerp_zero]

/-- At `t = 1` interpolation reproduces the newer entity exactly. -/
theorem Entity.lerp_one_all (a b : Entity) : Entity.lerp a b 1 = b := by
  cases b; simp [Entity.lerp, Point.lerp_one_pos, Complex.lerp_one_rot]

/-- C7.  Interpolation endpoints: for every pair of snapshots `a` and `b` and
every non-ignored entity of `b` (with `b`'s entity ids distinct) whose id is
also present in `a`, `lerp_merge` at `t = 0` writes an entity whose position
is `a`'s position for that id, and at `t = 1` writes `b`'s entity exactly
(all non-interpolated fields always come from `b`). -/
theorem C7_lerp_merge_endpoints
    (result a b : GameState) (ignore : ℕ) (e ae : Entity)
    (hmem : e ∈ b.entities) (hne : e.player_id ≠ ignore)
    (hnodup : (b.entities.map Entity.id).Nodup)
    (ha : a.find_by_id e.id = some ae) :
    (GameState.lerp_merge result a b 0 ignore).find_by_id e.id =
      some (Entity.lerp ae e 0) ∧
    (Entity.lerp ae e 0).pos = ae.pos ∧
    (GameState.lerp_merge result a b 1 ignore).find_by_id e.id = some e := by
  refine ⟨lerpMergeList_find a 0 ignore result b.entities e ae hmem hne
    hnodup ha, Entity.lerp_zero_pos ae e, ?_⟩
  have h1 := lerpMergeList_find a 1 ignore result b.entities e ae hmem hne
    hnodup ha
  rwa [Entity.lerp_one_all] at h1

/-- C7 witness: merging two concrete snapshots at `t = 0` keeps the old
position of entity 7, and at `t = 1` reproduces the new entity exactly. -/
theorem C7_lerp_merge_endpoints_witness :
    (GameState.lerp_merge GameState.new gsA gsB 0 99).find_by_id entB7.id =
      some (Entity.lerp entA7 entB7 0) ∧
    (Entity.lerp entA7 entB7 0).pos = entA7.pos ∧
    (GameState.lerp_merge GameState.new gsA gsB 1 99).find_by_id entB7.id =
      some entB7 :=
  C7_lerp_merge_endpoints GameState.new gsA gsB 99 entB7 entA7
    (by with_unfolding_all decide) (by with_unfolding_all decide)
    (by with_unfolding_all decide) (by with_unfolding_all decide)

/-- Replacing by id never touches an index holding a different id. -/
theorem replaceFirstById_getElem (l : List Entity) (n : ℕ) (e : Entity)
    (k : ℕ) (v : Entity) (hv : l[k]? = some v) (hne : v.id ≠ n) :
    (replaceFirstById l n e)[k]? = some v := by
  induction l generalizing k with
  | nil => simp at hv
  | cons x xs ih =>
    cases k with
    | zero =>
      simp only [List.getElem?_cons_zero, Option.some_inj] at hv
      subst hv
      unfold replaceFirstById
      rw [if_neg (by simp [hne])]
      simp
    | succ k =>
      simp only [List.getElem?_cons_succ] at hv
      unfold replaceFirstById
      split
      · simpa using hv
      · simpa using ih k hv

/-- `add_or_replace_by_id` never touches an index holding a different id. -/
theorem add_or_replace_getElem (s : GameState) (n : ℕ) (e : Entity) (k : ℕ)
    (v : Entity) (hv : s.entities[k]? = some v) (hne : v.id ≠ n) :
    (s.add_or_replace_by_id n e).entities[k]? = some v := by
  unfold GameState.add_or_replace_by_id
  split
  · exact replaceFirstById_getElem _ _ _ _ _ hv hne
  · simp only
    have hk : k < s.entities.length := by
      by_contra hk2
      push_neg at hk2
      rw [List.getElem?_eq_none hk2] at hv
      simp at hv
    rw [List.getElem?_append, if_pos hk]
    exact hv

/-- `add_or_replace_by_id` never shrinks the entity list. -/
theorem add_or_replace_length (s : GameState) (n : ℕ) (e : Entity) :
    s.entities.length ≤ (s.add_or_replace_by_id n e).entities.length := by
  unfold GameState.add_or_replace_by_id
  split
  · simp [replaceFirstById_length]
  · simp

/-- The merge loop never shrinks the result's entity list. -/
theorem lerpMergeList_length (a : GameState) (t : ℚ) (ignore : ℕ)
    (res : GameState) (bs : List Entity) :
    res.entities.length ≤ (lerpMergeList a t ignore res bs).entities.length := by
  induction bs generalizing res with
  | nil => exact Nat.le_refl _
  | cons be rest ih =>
    unfold lerpMergeList
    split
    · exact ih res
    · cases hf : a.find_by_id be.id with
      | some ae => exact Nat.le_trans (add_or_replace_length _ _ _) (ih _)
      | none => exact Nat.le_trans (add_or_replace_length _ _ _) (ih _)

/-- The merge loop leaves every index holding an id that no processed entity
of `b` carries completely unchanged. -/
theorem lerpMergeList_getElem (a : GameState) (t : ℚ) (ignore : ℕ)
    (res : GameState) (bs : List Entity) (k : ℕ) (v : Entity)
    (hv : res.entities[k]? = some v)
    (h : ∀ be ∈ bs, be.player_id ≠ ignore → be.id ≠ v.id) :
    (lerpMergeList a t ignore res bs).entities[k]? = some v := by
  induction bs generalizing res with
  | nil => exact hv
  | cons be rest ih =>
    have hrest : ∀ be2 ∈ rest, be2.player_id ≠ ignore → be2.id ≠ v.id :=
      fun be2 hbe2 => h be2 (by simp [hbe2])
    unfold lerpMergeList
    split
    · exact ih res hv hrest
    · next hig =>
      have hbe : be.id ≠ v.id := h be (by simp) (by simpa using hig)
      cases hf : a.find_by_id be.id with
      | some ae =>
        exact ih _ (add_or_replace_getElem _ _ _ _ _ hv (fun hh => hbe hh.symm))
          hrest
      | none =>
        exact ih _ (add_or_replace_getElem _ _ _ _ _ hv (fun hh => hbe hh.symm))
          hrest

/-- C10.  `lerp_merge` never removes entities: the result only grows, and
every entity already present in the result whose id is not carried by any
merged (non-ignored) entity of `b` — in particular every entity whose id does
not occur in `b` at all, and the local player's own entities when `b` only
uses their ids for entities of that same player — stays at its index
completely unchanged. -/
theorem C10_lerp_merge_frame (result a b : GameState) (t : ℚ) (ignore : ℕ) :
    result.entities.length ≤
      (GameState.lerp_merge result a b t ignore).entities.length ∧
    (∀ (k : ℕ) (v : Entity), result.entities[k]? = some v →
      (∀ be ∈ b.entities, be.player_id ≠ ignore → be.id ≠ v.id) →
      (GameState.lerp_merge result a b t ignore).entities[k]? = some v) ∧
    (∀ (k : ℕ) (v : Entity), result.entities[k]? = some v →
      v.id ∉ b.entities.map Entity.id →
      (GameState.lerp_merge result a b t ignore).entities[k]? = some v) ∧
    (∀ (k : ℕ) (v : Entity), result.entities[k]? = some v → v.player_id = ignore →
      (∀ be ∈ b.entities, be.id = v.id → be.player_id = ignore) →
      (GameState.lerp_merge result a b t ignore).entities[k]? = some v) := by
  refine ⟨lerpMergeList_length a t ignore result b.entities, ?_, ?_, ?_⟩
  · intro k v hv h
    exact lerpMergeList_getElem a t ignore result b.entities k v hv h
  · intro k v hv h
    refine lerpMergeList_getElem a t ignore result b.entities k v hv ?_
    intro be hbe _ hid
    exact h (by rw [← hid]; exact List.mem_map_of_mem Entity.id hbe)
  · intro k v hv hown h
    refine lerpMergeList_getElem a t ignore result b.entities k v hv ?_
    intro be hbe hbig hid
    exact hbig (h be hbe hid)

/-- C10 witness: with the local player id 1 ignored, merging leaves both the
local entity 7 (whose id `b` only uses for player 1) and entity 8 (absent
from `b`) unchanged at their indices, and the list does not shrink. -/
theorem C10_lerp_merge_frame_witness :
    gsB.entities.length ≤
      (GameState.lerp_merge gsB gsA gsA (1 / 2) 1).entities.length ∧
    (GameState.lerp_merge gsB gsA gsA (1 / 2) 1).entities[1]? = some entB8 ∧
    (GameState.lerp_merge gsB gsA gsA (1 / 2) 1).entities[0]? = some entB7 :=
  ⟨(C10_lerp_merge_frame gsB gsA gsA (1 / 2) 1).1,
    (C10_lerp_merge_frame gsB gsA gsA (1 / 2) 1).2.2.1 1 entB8
      (by with_unfolding_all decide) (by with_unfolding_all decide),
    (C10_lerp_merge_frame gsB gsA gsA (1 / 2) 1).2.2.2 0 entB7
      (by with_unfolding_all decide) (by with_unfolding_all decide)
      (by with_unfolding_all decide)⟩

/-- C5.  On a broadcast the client shifts `last_received` into
`penultimate_received` and installs the broadcast as both `last_received`
and `prediction`; exactly when the echoed sequence number is older than the
highest sequence number already sent and the local player's predicted entity
still exists (the client has not been killed and lost it), that saved entity
is spliced back into the new prediction.  On the spec's concrete scenario the
post-merge prediction keeps id 7 at (10, 10) while id 8 takes the server's
value. -/
theorem C5_reconciliation (q : GameStateQueue) (pid : ℕ)
    (bp : BroadcastPackage) (lastSeq : ℕ) :
    (processBroadcast q (some pid) bp lastSeq).penultimate_received =
      q.last_received ∧
    (processBroadcast q (some pid) bp lastSeq).last_received = bp.game_state ∧
    (∀ copy : Entity, bp.sequence_number < lastSeq →
      q.prediction.find_by_player_id pid = some copy →
      (processBroadcast q (some pid) bp lastSeq).prediction =
        bp.game_state.add_or_replace_by_player_id pid copy) ∧
    (q.prediction.find_by_player_id pid = none →
      (processBroadcast q (some pid) bp lastSeq).prediction = bp.game_state) ∧
    (¬ bp.sequence_number < lastSeq →
      (processBroadcast q (some pid) bp lastSeq).prediction = bp.game_state) ∧
    ((processBroadcast queueC5 (some 5) ⟨3, srvGS⟩ 10).prediction.find_by_id 7 =
        some entLocal7 ∧
      (processBroadcast queueC5 (some 5) ⟨3, srvGS⟩ 10).prediction.find_by_id 8 =
        some entSrv8 ∧
      entLocal7.pos = ⟨10, 10⟩ ∧ entSrv8.pos = ⟨5, 5⟩) := by
  refine ⟨?_, ?_, ?_, ?_, ?_, ?_⟩
  · cases hcopy : q.prediction.find_by_player_id pid with
    | none =>
      by_cases hseq : bp.sequence_number < lastSeq <;>
        simp [processBroadcast, hcopy, hseq]
    | some c =>
      by_cases hseq : bp.sequence_number < lastSeq <;>
        simp [processBroadcast, hcopy, hseq]
  · cases hcopy : q.prediction.find_by_player_id pid with
    | none =>
      by_cases hseq : bp.sequence_number < lastSeq <;>
        simp [processBroadcast, hcopy, hseq]
    | some c =>
      by_cases hseq : bp.sequence_number < lastSeq <;>
        simp [processBroadcast, hcopy, hseq]
  · intro copy hseq hcopy
    simp [processBroadcast, hcopy, hseq]
  · intro hcopy
    by_cases hseq : bp.sequence_number < lastSeq <;>
      simp [processBroadcast, hcopy, hseq]
  · intro hseq
    cases hcopy : q.prediction.find_by_player_id pid with
    | none => simp [processBroadcast, hcopy, hseq]
    | some c => simp [processBroadcast, hcopy, hseq]
  · refine ⟨?_, ?_, rfl, rfl⟩ <;> with_unfolding_all decide

/-- C5 witness: the concrete stale broadcast (sequence 3 against 10 already
sent) shifts the queue and splices the saved local entity back into the
prediction. -/
theorem C5_reconciliation_witness :
    (processBroadcast queueC5 (some 5) ⟨3, srvGS⟩ 10).penultimate_received =
      queueC5.last_received ∧
    (processBroadcast queueC5 (some 5) ⟨3, srvGS⟩ 10).prediction =
      srvGS.add_or_replace_by_player_id 5 entLocal7 :=
  ⟨(C5_reconciliation queueC5 5 ⟨3, srvGS⟩ 10).1,
    (C5_reconciliation queueC5 5 ⟨3, srvGS⟩ 10).2.2.1 entLocal7
      (by decide) (by with_unfolding_all decide)⟩

/-- `ray_cast` returns exactly the `rayScalars` payload. -/
theorem ray_cast_eq (s rhs : Segment) :
    s.ray_cast rhs = some (rayScalars s rhs) := rfl

/-- If no shield is strictly crossed, the shield loop falls through. -/
theorem reflectShieldLoop_none (M : MissingOps) (rot : Complex)
    (shields : List Segment) (motion : Segment)
    (h : ∀ sh ∈ shields, (rayScalars sh motion).intersects = false) :
    reflectShieldLoop M rot shields motion = none := by
  induction shields with
  | nil => rfl
  | cons sh rest ih =>
    unfold reflectShieldLoop
    rw [ray_cast_eq]
    simp only
    rw [if_neg (by simp [h sh (by simp)])]
    exact ih fun s hs => h s (by simp [hs])

/-- The world-bound branch of `GameState::reflect`: when no shield is
crossed and bound edge `k` is the first edge strictly crossed, the position
snaps to the exact ray-cast intersection point on that edge and the rotation
is updated by `reflectRotAtEdge k`. -/
theorem reflect_bound_hit (M : MissingOps) (pos : Point) (rot : Complex)
    (bounds : Rect) (shields : List Segment) (motion : Segment) (k : ℕ)
    (hk : k < 4)
    (hsh : ∀ sh ∈ shields, (rayScalars sh motion).intersects = false)
    (hhit : (rayScalars (boundEdge bounds k) motion).intersects = true)
    (hfirst : ∀ j, j < k →
      (rayScalars (boundEdge bounds j) motion).intersects = false) :
    GameState.reflect M pos rot bounds shields motion =
      some ((rayScalars (boundEdge bounds k) motion).intersection_point,
        (reflectRotAtEdge k rot).getD rot, true) := by
  unfold GameState.reflect
  rw [reflectShieldLoop_none M rot shields motion hsh]
  interval_cases k
  · simp only [boundEdge] at hhit
    simp only [Rect.edges, enumList, reflectBoundLoop, ray_cast_eq]
    rw [if_pos hhit]
    rfl
  · have h0 := hfirst 0 (by omega)
    simp only [boundEdge] at hhit h0
    simp only [Rect.edges, enumList, reflectBoundLoop, ray_cast_eq]
    rw [if_neg (by simp [h0]), if_pos hhit]
    rfl
  · have h0 := hfirst 0 (by omega)
    have h1 := hfirst 1 (by omega)
    simp only [boundEdge] at hhit h0 h1
    simp only [Rect.edges, enumList, reflectBoundLoop, ray_cast_eq]
    rw [if_neg (by simp [h0]), if_neg (by simp [h1]), if_pos hhit]
    rfl
  · have h0 := hfirst 0 (by omega)
    have h1 := hfirst 1 (by omega)
    have h2 := hfirst 2 (by omega)
    simp only [boundEdge] at hhit h0 h1 h2
    simp only [Rect.edges, enumList, reflectBoundLoop, ray_cast_eq]
    rw [if_neg (by simp [h0]), if_neg (by simp [h1]), if_neg (by simp [h2]),
      if_pos hhit]
    rfl

/-- C4 (amended).  For a motion segment that strictly crosses world-bound
edge `k` first and no shield, `GameState::reflect` snaps the position to the
exact ray-cast intersection point (the 99 %-short snap exists only in the
shield branch) and forces the rotation component away from the edge: edge 0
makes the vertical component non-negative, edge 1 the horizontal
non-positive, edge 2 the vertical non-positive, edge 3 the horizontal
non-negative; any other edge index is the fatal `panic!` arm.  Consequently
`step` (the advance helper of `proceed`) leaves a projectile crossing the
top edge with a non-negative vertical rotation component. -/
theorem C4_world_bound_reflection (M : MissingOps) (pos : Point)
    (rot : Complex) (bounds : Rect) (shields : List Segment)
    (motion : Segment) (k : ℕ) (hk : k < 4)
    (hsh : ∀ sh ∈ shields, (rayScalars sh motion).intersects = false)
    (hhit : (rayScalars (boundEdge bounds k) motion).intersects = true)
    (hfirst : ∀ j, j < k →
      (rayScalars (boundEdge bounds j) motion).intersects = false) :
    GameState.reflect M pos rot bounds shields motion =
      some ((rayScalars (boundEdge bounds k) motion).intersection_point,
        (reflectRotAtEdge k rot).getD rot, true) ∧
    (k = 0 → (reflectRotAtEdge k rot).getD rot = ⟨rot.r, |rot.i|⟩ ∧
      0 ≤ ((reflectRotAtEdge k rot).getD rot).i) ∧
    (k = 1 → (reflectRotAtEdge k rot).getD rot = ⟨-|rot.r|, rot.i⟩ ∧
      ((reflectRotAtEdge k rot).getD rot).r ≤ 0) ∧
    (k = 2 → (reflectRotAtEdge k rot).getD rot = ⟨rot.r, -|rot.i|⟩ ∧
      ((reflectRotAtEdge k rot).getD rot).i ≤ 0) ∧
    (k = 3 → (reflectRotAtEdge k rot).getD rot = ⟨|rot.r|, rot.i⟩ ∧
      0 ≤ ((reflectRotAtEdge k rot).getD rot).r) ∧
    (∀ i : ℕ, 4 ≤ i → reflectRotAtEdge i rot = none) ∧
    (∀ (rps : Option (List Point)) (tail : Bool) (v dt : ℚ),
      (∀ sh ∈ shields, (rayScalars sh
        ⟨pos, pos.addV (Vector.polar rot (v * 2 * dt))⟩).intersects = false) →
      (rayScalars (boundEdge bounds 0)
        ⟨pos, pos.addV (Vector.polar rot (v * 2 * dt))⟩).intersects = true →
      ∃ rps2, step M pos rot rps tail bounds shields v dt =
        some ((rayScalars (boundEdge bounds 0)
          ⟨pos, pos.addV (Vector.polar rot (v * 2 * dt))⟩).intersection_point,
          ⟨rot.r, |rot.i|⟩, rps2) ∧
        (0 : ℚ) ≤ |rot.i|) := by
  refine ⟨reflect_bound_hit M pos rot bounds shields motion k hk hsh hhit
    hfirst, ?_, ?_, ?_, ?_, ?_, ?_⟩
  · rintro rfl
    exact ⟨rfl, by simp [reflectRotAtEdge]⟩
  · rintro rfl
    exact ⟨rfl, by simp [reflectRotAtEdge]⟩
  · rintro rfl
    exact ⟨rfl, by simp [reflectRotAtEdge]⟩
  · rintro rfl
    exact ⟨rfl, by simp [reflectRotAtEdge]⟩
  · intro i hi
    match i, hi with
    | n + 4, _ => rfl
  · intro rps tail v dt hsh2 hhit2
    have hrefl := reflect_bound_hit M pos rot bounds shields
      ⟨pos, pos.addV (Vector.polar rot (v * 2 * dt))⟩ 0 (by omega) hsh2 hhit2
      (fun j hj => absurd hj (Nat.not_lt_zero j))
    refine ⟨match rps with
      | some rps0 => some (if tail then rps0.drop 1 else rps0 ++
          [(rayScalars (boundEdge bounds 0)
            ⟨pos, pos.addV (Vector.polar rot (v * 2 * dt))⟩).intersection_point])
      | none => none, ?_, abs_nonneg rot.i⟩
    simp only [step, hrefl, reflectRotAtEdge, Option.getD_some, if_pos]

set_option maxRecDepth 8000 in
/-- C4 counterexample: a motion segment dropping from (100, 50) to (100, 46)
strictly crosses the top bound edge of the rectangle (32, 48, 736, 536); the
code snaps the position to the exact intersection point (100, 48) on the
edge, not to the spec's "99 % along" point (100, 48.02). -/
theorem C4_reflect_counterexample :
    GameState.reflect trivialOps ⟨100, 50⟩ ⟨0, -1⟩ ⟨32, 48, 736, 536⟩ []
      ⟨⟨100, 50⟩, ⟨100, 46⟩⟩ = some (⟨100, 48⟩, ⟨0, 1⟩, true) ∧
    specPoint99 (rayScalars (boundEdge ⟨32, 48, 736, 536⟩ 0)
      ⟨⟨100, 50⟩, ⟨100, 46⟩⟩) = ⟨100, 2401 / 50⟩ ∧
    (⟨100, 48⟩ : Point) ≠ ⟨100, 2401 / 50⟩ := by
  refine ⟨?_, ?_, ?_⟩ <;> with_unfolding_all decide

/-- C4 witness: the amended theorem applied to the counterexample's concrete
crossing of the top edge (index 0). -/
theorem C4_world_bound_reflection_witness :
    GameState.reflect trivialOps ⟨100, 50⟩ ⟨0, -1⟩ ⟨32, 48, 736, 536⟩ []
      ⟨⟨100, 50⟩, ⟨100, 46⟩⟩ =
      some ((rayScalars (boundEdge ⟨32, 48, 736, 536⟩ 0)
        ⟨⟨100, 50⟩, ⟨100, 46⟩⟩).intersection_point,
        (reflectRotAtEdge 0 ⟨0, -1⟩).getD ⟨0, -1⟩, true) ∧
    (reflectRotAtEdge 0 (⟨0, -1⟩ : Complex)).getD ⟨0, -1⟩ =
      ⟨(0 : ℚ), |(-1 : ℚ)|⟩ ∧
    (0 : ℚ) ≤ ((reflectRotAtEdge 0 (⟨0, -1⟩ : Complex)).getD ⟨0, -1⟩).i :=
  ⟨(C4_world_bound_reflection trivialOps ⟨100, 50⟩ ⟨0, -1⟩ ⟨32, 48, 736, 536⟩
      [] ⟨⟨100, 50⟩, ⟨100, 46⟩⟩ 0 (by omega) (by simp)
      (by with_unfolding_all decide)
      (fun j hj => absurd hj (Nat.not_lt_zero j))).1,
    ((C4_world_bound_reflection trivialOps ⟨100, 50⟩ ⟨0, -1⟩ ⟨32, 48, 736, 536⟩
      [] ⟨⟨100, 50⟩, ⟨100, 46⟩⟩ 0 (by omega) (by simp)
      (by with_unfolding_all decide)
      (fun j hj => absurd hj (Nat.not_lt_zero j))).2.1 rfl).1,
    ((C4_world_bound_reflection trivialOps ⟨100, 50⟩ ⟨0, -1⟩ ⟨32, 48, 736, 536⟩
      [] ⟨⟨100, 50⟩, ⟨100, 46⟩⟩ 0 (by omega) (by simp)
      (by with_unfolding_all decide)
      (fun j hj => absurd hj (Nat.not_lt_zero j))).2.1 rfl).2⟩

theorem len_vert (w : ℚ) : (⟨0, w⟩ : Vector).len = |w| := by
  unfold Vector.len
  rw [show (0 : ℚ) * 0 + w * w = w * w by ring, Rat.sqrt_eq]

theorem len_horiz (w : ℚ) : (⟨w, 0⟩ : Vector).len = |w| := by
  unfold Vector.len
  rw [show w * w + (0 : ℚ) * 0 = w * w by ring, Rat.sqrt_eq]

theorem normalize_vert (w : ℚ) (hw : 0 < w) :
    (⟨0, w⟩ : Vector).normalize = ⟨0, 1⟩ := by
  unfold Vector.normalize
  rw [len_vert, abs_of_pos hw]
  simp [div_self (ne_of_gt hw)]

theorem normalize_vert_neg (w : ℚ) (hw : 0 < w) :
    (⟨0, -w⟩ : Vector).normalize = ⟨0, -1⟩ := by
  unfold Vector.normalize
  rw [show (⟨0, -w⟩ : Vector).len = |(-w)| from len_vert (-w), abs_neg,
    abs_of_pos hw]
  simp [neg_div, div_self (ne_of_gt hw)]

theorem normalize_horiz (w : ℚ) (hw : 0 < w) :
    (⟨w, 0⟩ : Vector).normalize = ⟨1, 0⟩ := by
  unfold Vector.normalize
  rw [len_horiz, abs_of_pos hw]
  simp [div_self (ne_of_gt hw)]

theorem normalize_horiz_neg (w : ℚ) (hw : 0 < w) :
    (⟨-w, 0⟩ : Vector).normalize = ⟨-1, 0⟩ := by
  unfold Vector.normalize
  rw [show (⟨-w, 0⟩ : Vector).len = |(-w)| from len_horiz (-w), abs_neg,
    abs_of_pos hw]
  simp [neg_div, div_self (ne_of_gt hw)]

/-- The four candidate axes contributed by an axis-aligned box. -/
theorem axes_of_box (r : Rect) (hw : 0 < r.w) (hh : 0 < r.h) :
    r.edges.map (fun x => x.vec.left_perpendicular.normalize) =
      [⟨0, 1⟩, ⟨-1, 0⟩, ⟨0, -1⟩, ⟨1, 0⟩] := by
  have e0 : (Segment.vec ⟨⟨r.x, r.y⟩, ⟨r.x + r.w, r.y⟩⟩) = ⟨r.w, 0⟩ := by
    unfold Segment.vec Point.sub
    congr 1 <;> ring
  have e1 : (Segment.vec ⟨⟨r.x + r.w, r.y⟩, ⟨r.x + r.w, r.y + r.h⟩⟩) =
      ⟨0, r.h⟩ := by
    unfold Segment.vec Point.sub
    congr 1 <;> ring
  have e2 : (Segment.vec ⟨⟨r.x + r.w, r.y + r.h⟩, ⟨r.x, r.y + r.h⟩⟩) =
      ⟨-r.w, 0⟩ := by
    unfold Segment.vec Point.sub
    congr 1 <;> ring
  have e3 : (Segment.vec ⟨⟨r.x, r.y + r.h⟩, ⟨r.x, r.y⟩⟩) = ⟨0, -r.h⟩ := by
    unfold Segment.vec Point.sub
    congr 1 <;> ring
  simp only [Rect.edges, List.map, e0, e1, e2, e3]
  unfold Vector.left_perpendicular
  simp only [neg_neg, neg_zero]
  rw [normalize_vert r.w hw, normalize_horiz_neg r.h hh,
    normalize_vert_neg r.w hw, normalize_horiz r.h hh]

theorem projFold_isSome (l : List Point) (s : Segment) :
    (l.foldl (fun m x =>
      match m with
      | none => some ⟨x, x⟩
      | some s2 => some ⟨minPoint s2.p0 x, maxPoint s2.p1 x⟩)
      (some s)).isSome := by
  induction l generalizing s with
  | nil => rfl
  | cons x xs ih => exact ih _

/-- Projecting a nonempty shape never panics. -/
theorem projShape_isSome (axis : Vector) (edges : List Segment)
    (h : edges ≠ []) : (projShape axis edges).isSome := by
  match edges, h with
  | e :: rest, _ =>
    unfold projShape
    simp only [List.map, List.flatten, List.cons_append, List.foldl]
    exact projFold_isSome _ _

theorem projShape_horiz_neg_axis (r : Rect) (hw : 0 < r.w) :
    projShape ⟨-1, 0⟩ r.edges = some ⟨⟨r.x, 0⟩, ⟨r.x + r.w, 0⟩⟩ := by
  unfold projShape Rect.edges Segment.project_on Vector.project_on
  simp only [Vector.dot, Vector.smul, Point.sub, Point.origin, Point.addV,
    List.map, List.flatten, List.foldl, minPoint, maxPoint, List.append,
    List.cons_append, List.nil_append]
  norm_num
  linarith

/-- Two flat (projected) segments with a strict gap on the x-axis produce no
exit vector. -/
theorem exit_vec_gap (a0 a1 b0 b1 : ℚ) (ha : a0 ≤ a1) (hb : b0 ≤ b1)
    (h : a1 < b0) :
    Segment.exit_vec_while_intersects_on_the_same_line
      ⟨⟨a0, 0⟩, ⟨a1, 0⟩⟩ ⟨⟨b0, 0⟩, ⟨b1, 0⟩⟩ = none := by
  unfold Segment.exit_vec_while_intersects_on_the_same_line
    intersects_on_basis
  simp only [min_eq_left ha, max_eq_right ha, min_eq_left hb, max_eq_right hb]
  rw [if_neg (by rintro ⟨h1, h2⟩; linarith)]

theorem collideGo_nil (s rhs : List Segment) (acc : List Vector) :
    collideGo s rhs [] acc = some (minByLen acc) := rfl

theorem collideGo_cons (s rhs : List Segment) (axis : Vector)
    (rest : List Vector) (acc : List Vector) :
    collideGo s rhs (axis :: rest) acc =
      match projShape axis s, projShape axis rhs with
      | some proj0, some proj1 =>
        match proj0.exit_vec_while_intersects_on_the_same_line proj1 with
        | some exit_vec => collideGo s rhs rest (acc ++ [exit_vec])
        | none => some none
      | _, _ => none := rfl

/-- C6 part 1: two axis-aligned boxes with a strict gap on the x-axis never
collide — the x separating axis (the second candidate axis) reports a gap
whatever the first (y) axis reports. -/
theorem collide_boxes_gap_x (r1 r2 : Rect) (hw1 : 0 < r1.w) (hh1 : 0 < r1.h)
    (hw2 : 0 < r2.w) (hh2 : 0 < r2.h) (hgap : r1.x + r1.w < r2.x) :
    collide r1.edges r2.edges = some none := by
  have hax : collideAxes r1.edges r2.edges =
      [⟨0, 1⟩, ⟨-1, 0⟩, ⟨0, -1⟩, ⟨1, 0⟩] ++
        [⟨0, 1⟩, ⟨-1, 0⟩, ⟨0, -1⟩, ⟨1, 0⟩] := by
    unfold collideAxes
    rw [List.map_append, axes_of_box r1 hw1 hh1, axes_of_box r2 hw2 hh2]
  have hc : collide r1.edges r2.edges =
      collideGo r1.edges r2.edges (collideAxes r1.edges r2.edges) [] := rfl
  rw [hc, hax]
  have hne1 : r1.edges ≠ [] := by simp [Rect.edges]
  have hne2 : r2.edges ≠ [] := by simp [Rect.edges]
  have hp1 := projShape_isSome ⟨0, 1⟩ r1.edges hne1
  have hp2 := projShape_isSome ⟨0, 1⟩ r2.edges hne2
  cases hP0 : projShape ⟨0, 1⟩ r1.edges with
  | none => rw [hP0] at hp1; simp at hp1
  | some P0 =>
    cases hP1 : projShape ⟨0, 1⟩ r2.edges with
    | none => rw [hP1] at hp2; simp at hp2
    | some P1 =>
      rw [List.cons_append, collideGo_cons, hP0, hP1]
      simp only
      cases hEx : P0.exit_vec_while_intersects_on_the_same_line P1 with
      | none => rfl
      | some v =>
        simp only
        rw [List.cons_append, collideGo_cons,
          projShape_horiz_neg_axis r1 hw1, projShape_horiz_neg_axis r2 hw2]
        simp only
        rw [exit_vec_gap r1.x (r1.x + r1.w) r2.x (r2.x + r2.w)
          (by linarith) (by linarith) hgap]

/-- The `min_by` fold picks an element of minimal length (the first of
equally minimal ones). -/
theorem minFold_spec (v0 : Vector) (rest : List Vector) :
    (rest.foldl (fun acc x => if x.len < acc.len then x else acc) v0) ∈
      v0 :: rest ∧
    ∀ u ∈ v0 :: rest,
      (rest.foldl (fun acc x => if x.len < acc.len then x else acc) v0).len ≤
        u.len := by
  induction rest generalizing v0 with
  | nil =>
    refine ⟨by simp, ?_⟩
    intro u hu
    simp at hu
    subst hu
    exact le_refl _
  | cons x xs ih =>
    have hfold : (x :: xs).foldl
        (fun acc y => if y.len < acc.len then y else acc) v0 =
        xs.foldl (fun acc y => if y.len < acc.len then y else acc)
          (if x.len < v0.len then x else v0) := rfl
    obtain ⟨hmem, hmin⟩ := ih (if x.len < v0.len then x else v0)
    constructor
    · rw [hfold]
      rcases List.mem_cons.mp hmem with h | h
      · rw [h]
        split <;> simp
      · simp [h]
    · intro u hu
      rw [hfold]
      have hle0 : (if x.len < v0.len then x else v0).len ≤ v0.len := by
        split
        · next hlt => exact le_of_lt hlt
        · exact le_refl _
      have hlex : (if x.len < v0.len then x else v0).len ≤ x.len := by
        split
        · exact le_refl _
        · next hlt => exact le_of_not_lt hlt
      rcases List.mem_cons.mp hu with h | h
      · subst h
        exact le_trans (hmin _ (by simp)) hle0
      · rcases List.mem_cons.mp h with h2 | h2
        · subst h2
          exact le_trans (hmin _ (by simp)) hlex
        · exact hmin u (by simp [h2])

/-- `minByLen` of a nonempty list returns a minimal element. -/
theorem minByLen_spec (l : List Vector) (h : l ≠ []) :
    ∃ v, minByLen l = some v ∧ v ∈ l ∧ ∀ u ∈ l, v.len ≤ u.len := by
  match l, h with
  | v0 :: rest, _ =>
    obtain ⟨hmem, hmin⟩ := minFold_spec v0 rest
    exact ⟨_, rfl, hmem, hmin⟩

/-- When every axis overlaps, the axis loop accumulates exactly the per-axis
exit vectors and returns their length minimum. -/
theorem collideGo_overlap (s rhs : List Segment) (axes : List Vector)
    (acc : List Vector)
    (hover : ∀ axis ∈ axes, (axisExit s rhs axis).isSome) :
    ∃ exits, List.Forall₂ (fun axis v => axisExit s rhs axis = some v)
      axes exits ∧
      collideGo s rhs axes acc = some (minByLen (acc ++ exits)) := by
  induction axes generalizing acc with
  | nil => exact ⟨[], List.Forall₂.nil, by rw [collideGo_nil]; simp⟩
  | cons axis rest ih =>
    have hx := hover axis (by simp)
    unfold axisExit at hx
    cases hP0 : projShape axis s with
    | none => rw [hP0] at hx; simp at hx
    | some proj0 =>
      cases hP1 : projShape axis rhs with
      | none => rw [hP0, hP1] at hx; simp at hx
      | some proj1 =>
        rw [hP0, hP1] at hx
        simp only at hx
        cases hEx : proj0.exit_vec_while_intersects_on_the_same_line proj1 with
        | none => rw [hEx] at hx; simp at hx
        | some v =>
          obtain ⟨exits, hfa, heq⟩ :=
            ih (acc ++ [v]) (fun a ha => hover a (by simp [ha]))
          refine ⟨v :: exits, List.Forall₂.cons ?_ hfa, ?_⟩
          · unfold axisExit
            rw [hP0, hP1]
            exact hEx
          · rw [collideGo_cons, hP0, hP1]
            simp only
            rw [hEx]
            simp only
            rw [heq, List.append_assoc]
            rfl

theorem forall₂_exit_mem_right (s rhs : List Segment) (axes : List Vector)
    (exits : List Vector)
    (hfa : List.Forall₂ (fun axis v => axisExit s rhs axis = some v) axes
      exits) :
    ∀ v ∈ exits, ∃ axis ∈ axes, axisExit s rhs axis = some v := by
  induction hfa with
  | nil => simp
  | cons h _ ih =>
    intro v hv
    rcases List.mem_cons.mp hv with h2 | h2
    · subst h2
      exact ⟨_, by simp, h⟩
    · obtain ⟨axis, ha, he⟩ := ih v h2
      exact ⟨axis, by simp [ha], he⟩

theorem forall₂_exit_mem_left (s rhs : List Segment) (axes : List Vector)
    (exits : List Vector)
    (hfa : List.Forall₂ (fun axis v => axisExit s rhs axis = some v) axes
      exits) :
    ∀ axis ∈ axes, ∀ u, axisExit s rhs axis = some u → u ∈ exits := by
  induction hfa with
  | nil => simp
  | cons h _ ih =>
    intro axis ha u hu
    rcases List.mem_cons.mp ha with h2 | h2
    · subst h2
      rw [h] at hu
      simp at hu
      simp [hu]
    · exact List.mem_cons_of_mem _ (ih axis h2 u hu)

/-- C6 part 2: when the projections overlap on every candidate axis, the
collision returns the exit vector of least magnitude among all per-axis exit
vectors. -/
theorem collide_overlap_min (s rhs : List Segment) (hs : s ≠ [])
    (hover : ∀ axis ∈ collideAxes s rhs, (axisExit s rhs axis).isSome) :
    ∃ v, collide s rhs = some (some v) ∧
      (∃ axis ∈ collideAxes s rhs, axisExit s rhs axis = some v) ∧
      ∀ axis ∈ collideAxes s rhs, ∀ u, axisExit s rhs axis = some u →
        v.len ≤ u.len := by
  obtain ⟨exits, hfa, heq⟩ :=
    collideGo_overlap s rhs (collideAxes s rhs) [] hover
  have hc : collide s rhs = collideGo s rhs (collideAxes s rhs) [] := rfl
  have hexne : exits ≠ [] := by
    have hlen := List.Forall₂.length_eq hfa
    intro hnil
    rw [hnil] at hlen
    have : collideAxes s rhs = [] := by
      apply List.eq_nil_of_length_eq_zero
      simpa using hlen
    unfold collideAxes at this
    match s, hs with
    | e :: srest, _ => simp at this
  obtain ⟨v, hmin, hvmem, hvle⟩ := minByLen_spec exits hexne
  refine ⟨v, ?_, ?_, ?_⟩
  · rw [hc, heq]
    simp [hmin]
  · exact forall₂_exit_mem_right s rhs _ _ hfa v hvmem
  · intro axis ha u hu
    exact hvle u (forall₂_exit_mem_left s rhs _ _ hfa axis ha u hu)

/-- C6.  SAT collision at the spec's two test points: two disjoint
axis-aligned boxes separated by a strict gap on the x-axis never report a
collision; and whenever the projections of two (nonempty) shapes overlap on
every candidate axis (the normalized left perpendicular of every edge of
both shapes), `collide` returns `Some` exit vector whose magnitude is the
minimum over all candidate axes of the per-axis overlap exit vectors — the
separating axis of least penetration. -/
theorem C6_sat_collision (r1 r2 : Rect) (s rhs : List Segment) :
    (0 < r1.w → 0 < r1.h → 0 < r2.w → 0 < r2.h → r1.x + r1.w < r2.x →
      collide r1.edges r2.edges = some none) ∧
    (s ≠ [] → (∀ axis ∈ collideAxes s rhs, (axisExit s rhs axis).isSome) →
      ∃ v, collide s rhs = some (some v) ∧
        (∃ axis ∈ collideAxes s rhs, axisExit s rhs axis = some v) ∧
        ∀ axis ∈ collideAxes s rhs, ∀ u, axisExit s rhs axis = some u →
          v.len ≤ u.len) :=
  ⟨fun hw1 hh1 hw2 hh2 hgap =>
    collide_boxes_gap_x r1 r2 hw1 hh1 hw2 hh2 hgap,
   fun hs hover => collide_overlap_min s rhs hs hover⟩

/-- C6 witness: the boxes (0,0)–(4,4) and (10,0)–(14,4) (gap on x) do not
collide; the overlapping boxes (0,0)–(4,4) and (3,1)–(7,5) collide with a
minimal exit vector. -/
theorem C6_sat_collision_witness :
    collide (Rect.edges ⟨0, 0, 4, 4⟩) (Rect.edges ⟨10, 0, 4, 4⟩) =
      some none ∧
    (∃ v, collide (Rect.edges ⟨0, 0, 4, 4⟩) (Rect.edges ⟨3, 1, 4, 4⟩) =
        some (some v) ∧
      (∃ axis ∈ collideAxes (Rect.edges ⟨0, 0, 4, 4⟩)
          (Rect.edges ⟨3, 1, 4, 4⟩),
        axisExit (Rect.edges ⟨0, 0, 4, 4⟩) (Rect.edges ⟨3, 1, 4, 4⟩) axis =
          some v) ∧
      ∀ axis ∈ collideAxes (Rect.edges ⟨0, 0, 4, 4⟩)
          (Rect.edges ⟨3, 1, 4, 4⟩),
        ∀ u, axisExit (Rect.edges ⟨0, 0, 4, 4⟩) (Rect.edges ⟨3, 1, 4, 4⟩)
            axis = some u →
          v.len ≤ u.len) :=
  ⟨(C6_sat_collision ⟨0, 0, 4, 4⟩ ⟨10, 0, 4, 4⟩ [] []).1
      (by norm_num) (by norm_num) (by norm_num) (by norm_num) (by norm_num),
   (C6_sat_collision ⟨0, 0, 4, 4⟩ ⟨10, 0, 4, 4⟩
      (Rect.edges ⟨0, 0, 4, 4⟩) (Rect.edges ⟨3, 1, 4, 4⟩)).2
      (by with_unfolding_all decide) (by with_unfolding_all decide)⟩

/-- Tuple extraction for the no-op branches of the damage body. -/
theorem noop_tuple_eq {c c2 pmod p2 : Entity} {ks : List ℕ}
    {crs : List (EntityCreateInfo × ℕ)} {brk : Bool}
    (h : (some (c, pmod, ([] : List ℕ),
        ([] : List (EntityCreateInfo × ℕ)), false) :
      Option (Entity × Entity × List ℕ × List (EntityCreateInfo × ℕ) × Bool)) =
      some (c2, p2, ks, crs, brk)) :
    (brk = false → c2 = c ∧ ks = [] ∧ crs = []) ∧
    (c2 = c ∨ (c2 = { c with health := c.health - 1 } ∧ c.health ≠ 0)) := by
  simp only [Option.some.injEq, Prod.mk.injEq] at h
  exact ⟨fun _ => ⟨h.1.symm, h.2.2.1.symm, h.2.2.2.1.symm⟩, Or.inl h.1.symm⟩

/-- What one damage-body step can do to the character: if it does not break
it leaves the character alone and queues nothing; in every case the
character's health drops by exactly one or not at all. -/
theorem damageBody_spec (M : MissingOps) (dt : ℚ) (c p c2 p2 : Entity)
    (ks : List ℕ) (crs : List (EntityCreateInfo × ℕ)) (brk : Bool)
    (h : damageBody M dt c p = some (c2, p2, ks, crs, brk)) :
    (brk = false → c2 = c ∧ ks = [] ∧ crs = []) ∧
    (c2 = c ∨ (c2 = { c with health := c.health - 1 } ∧ c.health ≠ 0)) := by
  unfold damageBody at h
  cases hr : p.role with
  | Character w =>
    rw [hr] at h
    simp only at h
    exact noop_tuple_eq h
  | Projectile kind =>
    cases kind with
    | Ball life inv vel hl rad =>
      rw [hr] at h
      simp only at h
      by_cases hg : p.player_id ≠ c.player_id ∨ inv < p.age
      · rw [if_pos hg] at h
        by_cases hcond : c.health ≠ 0 ∧ p.health ≠ 0 ∧ (c.pos.sub p.pos).len <
            c.inscribed_circle_radius + p.inscribed_circle_radius
        · rw [if_pos hcond] at h
          simp only [Option.some.injEq, Prod.mk.injEq] at h
          refine ⟨?_, Or.inr ⟨h.1.symm, hcond.1⟩⟩
          intro hb
          rw [← h.2.2.2.2] at hb
          simp at hb
        · rw [if_neg hcond] at h
          exact noop_tuple_eq h
      · rw [if_neg hg] at h
        exact noop_tuple_eq h
    | Ray life inv freeze vel hl =>
      rw [hr] at h
      simp only at h
      cases htail : p.tail with
      | none => rw [htail] at h; simp at h
      | some tl =>
        rw [htail] at h
        simp only at h
        by_cases hg : p.player_id ≠ c.player_id ∨ inv < p.age
        · rw [if_pos hg] at h
          by_cases hcond : c.health ≠ 0 ∧ p.health ≠ 0
          · rw [if_pos hcond] at h
            cases hac : anyCollides
                (segmentsOf (tl.end_ :: (tl.reflection_points ++ [p.pos])))
                (segments_ringe c.vertices) with
            | none => rw [hac] at h; simp at h
            | some b =>
              rw [hac] at h
              cases b with
              | true =>
                simp only [Option.some.injEq, Prod.mk.injEq] at h
                refine ⟨?_, Or.inr ⟨h.1.symm, hcond.1⟩⟩
                intro hb
                rw [← h.2.2.2.2] at hb
                simp at hb
              | false => exact noop_tuple_eq h
          · rw [if_neg hcond] at h
            exact noop_tuple_eq h
        · rw [if_neg hg] at h
          exact noop_tuple_eq h
    | Mine life inv act vel acc rad det expl dkind dcount =>
      rw [hr] at h
      simp only at h
      by_cases hg : p.activated = true ∧
          (p.player_id ≠ c.player_id ∨ inv < p.age)
      · rw [if_pos hg] at h
        by_cases hexpl : (c.pos.sub p.pos).len <
            c.inscribed_circle_radius + expl
        · rw [if_pos hexpl] at h
          simp only [Option.some.injEq, Prod.mk.injEq] at h
          refine ⟨?_, Or.inl h.1.symm⟩
          intro hb
          rw [← h.2.2.2.2] at hb
          simp at hb
        · rw [if_neg hexpl] at h
          by_cases hdet : (c.pos.sub p.pos).len <
              c.inscribed_circle_radius + det
          · rw [if_pos hdet] at h
            simp only at h
            exact noop_tuple_eq h
          · rw [if_neg hdet] at h
            simp only at h
            exact noop_tuple_eq h
      · rw [if_neg hg] at h
        exact noop_tuple_eq h

/-- The ball damage branch on a hit: both sides lose exactly one health
point, each side reaching zero queues its id exactly once, nothing is
spawned, and the loop breaks. -/
theorem damageBody_ball_hit (M : MissingOps) (dt : ℚ) (c p : Entity)
    (life inv vel : ℚ) (hl : ℕ) (rad : ℚ)
    (hrole : p.role = .Projectile (.Ball life inv vel hl rad))
    (hg : p.player_id ≠ c.player_id ∨ inv < p.age)
    (hc : c.health ≠ 0) (hp : p.health ≠ 0)
    (hdist : (c.pos.sub p.pos).len <
      c.inscribed_circle_radius + p.inscribed_circle_radius) :
    damageBody M dt c p = some
      (⟨c.id, c.player_id, c.age, c.pos, c.rot, c.color, c.role,
        c.health - 1, c.tail, c.activated⟩,
       ⟨p.id, p.player_id, p.age, p.pos, p.rot, p.color,
        .Projectile (.Ball life inv vel hl rad), p.health - 1, p.tail,
        p.activated⟩,
       (if c.health - 1 = 0 then [c.id] else []) ++
         (if p.health - 1 = 0 then [p.id] else []),
       [], true) := by
  simp only [damageBody, hrole]
  rw [if_pos hg, if_pos ⟨hc, hp, hdist⟩]

/-- Down the inner damage loop, a character's health is decremented at most
once. -/
theorem damageInner_health (M : MissingOps) (dt : ℚ) (c : Entity)
    (entities : List Entity) (kills : List ℕ)
    (creates : List (EntityCreateInfo × ℕ)) (js : List ℕ)
    (out : Entity × List Entity × List ℕ × List (EntityCreateInfo × ℕ))
    (h : damageInner M dt c entities kills creates js = some out) :
    out.1 = c ∨ (out.1 = { c with health := c.health - 1 } ∧ c.health ≠ 0) := by
  induction js generalizing c entities kills creates with
  | nil =>
    unfold damageInner at h
    simp only [Option.some.injEq] at h
    left
    rw [← h]
  | cons j rest ih =>
    unfold damageInner at h
    cases hj : entities[j]? with
    | none =>
      rw [hj] at h
      simp only at h
      exact ih c entities kills creates h
    | some p =>
      rw [hj] at h
      simp only at h
      cases hb : damageBody M dt c p with
      | none => rw [hb] at h; simp at h
      | some r5 =>
        obtain ⟨c2, p2, ks2, crs2, brk⟩ := r5
        rw [hb] at h
        simp only at h
        have hspec := damageBody_spec M dt c p c2 p2 ks2 crs2 brk hb
        cases brk with
        | true =>
          rw [if_pos rfl] at h
          simp only [Option.some.injEq] at h
          rcases hspec.2 with h1 | h1
          · left; rw [← h]; exact h1
          · right; rw [← h]; exact h1
        | false =>
          rw [if_neg (by simp)] at h
          obtain ⟨hc2, _, _⟩ := hspec.1 rfl
          subst hc2
          exact ih c2 _ _ _ h

/-- A breaking hit at the head of the inner loop stops the scan: only the
hit projectile's slot changes and the queued ids are appended once. -/
theorem damageInner_break (M : MissingOps) (dt : ℚ) (c : Entity)
    (entities : List Entity) (kills : List ℕ)
    (creates : List (EntityCreateInfo × ℕ)) (j : ℕ) (rest : List ℕ)
    (p c2 p2 : Entity) (ks : List ℕ) (crs : List (EntityCreateInfo × ℕ))
    (hp : entities[j]? = some p)
    (hb : damageBody M dt c p = some (c2, p2, ks, crs, true)) :
    damageInner M dt c entities kills creates (j :: rest) =
      some (c2, entities.set j p2, kills ++ ks, creates ++ crs) := by
  unfold damageInner
  rw [hp]
  simp only
  rw [hb]
  simp

/-- C2.  Ball damage resolution is atomic and at-most-once per character per
tick: when a ball projectile (owned by another player or past its owner's
invincibility window) overlaps a character and both healths are nonzero,
one damage event decrements both healths by exactly one, pushes each id that
reached zero into `kills` exactly once, spawns nothing, and breaks the inner
loop so that no later projectile is visited in this character's scan and no
character loses more than one health point per tick; a health-1 ball on a
health-1 character queues both ids exactly once. -/
theorem C2_ball_damage_atomic (M : MissingOps) (dt : ℚ) (c p : Entity)
    (life inv vel : ℚ) (hl : ℕ) (rad : ℚ)
    (hrole : p.role = .Projectile (.Ball life inv vel hl rad))
    (hg : p.player_id ≠ c.player_id ∨ inv < p.age)
    (hc : c.health ≠ 0) (hp : p.health ≠ 0)
    (hdist : (c.pos.sub p.pos).len <
      c.inscribed_circle_radius + p.inscribed_circle_radius) :
    damageBody M dt c p = some
      (⟨c.id, c.player_id, c.age, c.pos, c.rot, c.color, c.role,
        c.health - 1, c.tail, c.activated⟩,
       ⟨p.id, p.player_id, p.age, p.pos, p.rot, p.color,
        .Projectile (.Ball life inv vel hl rad), p.health - 1, p.tail,
        p.activated⟩,
       (if c.health - 1 = 0 then [c.id] else []) ++
         (if p.health - 1 = 0 then [p.id] else []),
       [], true) ∧
    (∀ (entities : List Entity) (kills : List ℕ)
      (creates : List (EntityCreateInfo × ℕ)) (j : ℕ) (rest : List ℕ),
      entities[j]? = some p →
      damageInner M dt c entities kills creates (j :: rest) =
        some (⟨c.id, c.player_id, c.age, c.pos, c.rot, c.color, c.role,
            c.health - 1, c.tail, c.activated⟩,
          entities.set j ⟨p.id, p.player_id, p.age, p.pos, p.rot, p.color,
            .Projectile (.Ball life inv vel hl rad), p.health - 1, p.tail,
            p.activated⟩,
          kills ++ ((if c.health - 1 = 0 then [c.id] else []) ++
            (if p.health - 1 = 0 then [p.id] else [])),
          creates) ∧
      ∀ i, i ≠ j →
        (entities.set j ⟨p.id, p.player_id, p.age, p.pos, p.rot, p.color,
          .Projectile (.Ball life inv vel hl rad), p.health - 1, p.tail,
          p.activated⟩)[i]? = entities[i]?) ∧
    (∀ (entities : List Entity) (kills : List ℕ)
      (creates : List (EntityCreateInfo × ℕ)) (js : List ℕ)
      (out : Entity × List Entity × List ℕ × List (EntityCreateInfo × ℕ)),
      damageInner M dt c entities kills creates js = some out →
      out.1 = c ∨ (out.1 = { c with health := c.health - 1 } ∧
        c.health ≠ 0)) ∧
    (c.health = 1 → p.health = 1 →
      ((if c.health - 1 = 0 then [c.id] else []) ++
        (if p.health - 1 = 0 then [p.id] else [])) = [c.id, p.id] ∧
      (c.id ≠ p.id →
        ((if c.health - 1 = 0 then [c.id] else []) ++
          (if p.health - 1 = 0 then [p.id] else [])).count c.id = 1 ∧
        ((if c.health - 1 = 0 then [c.id] else []) ++
          (if p.health - 1 = 0 then [p.id] else [])).count p.id = 1)) := by
  have h1 := damageBody_ball_hit M dt c p life inv vel hl rad hrole hg hc hp
    hdist
  refine ⟨h1, ?_, ?_, ?_⟩
  · intro entities kills creates j rest hpj
    refine ⟨?_, ?_⟩
    · have hbreak := damageInner_break M dt c entities kills creates j rest
        p _ _ _ _ hpj h1
      simpa using hbreak
    · intro i hi
      exact List.getElem?_set_ne (Ne.symm hi)
  · intro entities kills creates js out hout
    exact damageInner_health M dt c entities kills creates js out hout
  · intro hc1 hp1
    rw [hc1, hp1]
    refine ⟨by simp, ?_⟩
    intro hne
    simp [List.count_cons, hne, Ne.symm hne]

/-- C2 witness: a concrete health-1 ball overlapping a health-1 character
(distance 5 < 8 + 4) produces one atomic damage event queueing both ids. -/
theorem C2_ball_damage_atomic_witness :
    damageBody trivialOps 1 charC2 ballC2 = some
      (⟨charC2.id, charC2.player_id, charC2.age, charC2.pos, charC2.rot,
        charC2.color, charC2.role, charC2.health - 1, charC2.tail,
        charC2.activated⟩,
       ⟨ballC2.id, ballC2.player_id, ballC2.age, ballC2.pos, ballC2.rot,
        ballC2.color, .Projectile (.Ball 10 1 1 1 4), ballC2.health - 1,
        ballC2.tail, ballC2.activated⟩,
       (if charC2.health - 1 = 0 then [charC2.id] else []) ++
         (if ballC2.health - 1 = 0 then [ballC2.id] else []),
       [], true) ∧
    ((if charC2.health - 1 = 0 then [charC2.id] else []) ++
      (if ballC2.health - 1 = 0 then [ballC2.id] else [])) =
      [charC2.id, ballC2.id] ∧
    (charC2.id ≠ ballC2.id →
      ((if charC2.health - 1 = 0 then [charC2.id] else []) ++
        (if ballC2.health - 1 = 0 then [ballC2.id] else [])).count
        charC2.id = 1 ∧
      ((if charC2.health - 1 = 0 then [charC2.id] else []) ++
        (if ballC2.health - 1 = 0 then [ballC2.id] else [])).count
        ballC2.id = 1) :=
  ⟨(C2_ball_damage_atomic trivialOps 1 charC2 ballC2 10 1 1 1 4 rfl
      (by with_unfolding_all decide) (by with_unfolding_all decide)
      (by with_unfolding_all decide) (by with_unfolding_all decide)).1,
   ((C2_ball_damage_atomic trivialOps 1 charC2 ballC2 10 1 1 1 4 rfl
      (by with_unfolding_all decide) (by with_unfolding_all decide)
      (by with_unfolding_all decide) (by with_unfolding_all decide)).2.2.2
      (by with_unfolding_all decide) (by with_unfolding_all decide)).1,
   fun hne => ((C2_ball_damage_atomic trivialOps 1 charC2 ballC2 10 1 1 1 4
      rfl (by with_unfolding_all decide) (by with_unfolding_all decide)
      (by with_unfolding_all decide) (by with_unfolding_all decide)).2.2.2
      (by with_unfolding_all decide) (by with_unfolding_all decide)).2 hne⟩

/-- The advance pass never changes an entity's id. -/
theorem advanceEntity_id (M : MissingOps) (bounds : Rect)
    (shields : List Segment) (dt : ℚ) (e e2 : Entity) (keep : Bool)
    (h : advanceEntity M bounds shields dt e = some (e2, keep)) :
    e2.id = e.id := by
  unfold advanceEntity at h
  cases hr : e.role with
  | Character w =>
    rw [hr] at h
    simp only [Option.some.injEq, Prod.mk.injEq] at h
    rw [← h.1]
  | Projectile kind =>
    rw [hr] at h
    simp only at h
    cases kind with
    | Ball life inv vel hl rad =>
      cases hstep : step M e.pos e.rot none false bounds shields
          (ProjectileKind.Ball life inv vel hl rad).velocity dt with
      | none => rw [hstep] at h; simp at h
      | some tr =>
        obtain ⟨pos1, rot1, rps⟩ := tr
        rw [hstep] at h
        simp only [Option.some.injEq, Prod.mk.injEq] at h
        rw [← h.1]
    | Mine life inv act vel acc rad det expl dkind dcount =>
      cases hstep : step M e.pos e.rot none false bounds shields
          (ProjectileKind.Mine life inv act vel acc rad det expl dkind
            dcount).velocity dt with
      | none => rw [hstep] at h; simp at h
      | some tr =>
        obtain ⟨pos1, rot1, rps⟩ := tr
        rw [hstep] at h
        simp only [Option.some.injEq, Prod.mk.injEq] at h
        rw [← h.1]
    | Ray life inv freeze vel hl =>
      cases htail : e.tail with
      | none => rw [htail] at h; simp at h
      | some tl =>
        rw [htail] at h
        simp only at h
        cases hhead : (if e.age < life then
            step M e.pos e.rot (some tl.reflection_points) false bounds
              shields (ProjectileKind.Ray life inv freeze vel hl).velocity dt
          else some (e.pos, e.rot, some tl.reflection_points)) with
        | none => rw [hhead] at h; simp at h
        | some tr3 =>
          obtain ⟨pos1, rot1, rps1⟩ := tr3
          rw [hhead] at h
          simp only at h
          cases htl : (if freeze < e.age then
              step M tl.end_ tl.rotation rps1 true bounds shields
                (ProjectileKind.Ray life inv freeze vel hl).velocity dt
            else some (tl.end_, tl.rotation, rps1)) with
          | none => rw [htl] at h; simp at h
          | some tr4 =>
            obtain ⟨tend2, trot2, rps2⟩ := tr4
            rw [htl] at h
            simp only [Option.some.injEq, Prod.mk.injEq] at h
            rw [← h.1]

/-- A damage-body step never changes the ids of the two entities involved. -/
theorem damageBody_ids (M : MissingOps) (dt : ℚ) (c p c2 p2 : Entity)
    (ks : List ℕ) (crs : List (EntityCreateInfo × ℕ)) (brk : Bool)
    (h : damageBody M dt c p = some (c2, p2, ks, crs, brk)) :
    c2.id = c.id ∧ p2.id = p.id := by
  unfold damageBody at h
  cases hr : p.role with
  | Character w =>
    rw [hr] at h
    simp only [Option.some.injEq, Prod.mk.injEq] at h
    exact ⟨by rw [← h.1], by rw [← h.2.1]⟩
  | Projectile kind =>
    cases kind with
    | Ball life inv vel hl rad =>
      rw [hr] at h
      simp only at h
      by_cases hg : p.player_id ≠ c.player_id ∨ inv < p.age
      · rw [if_pos hg] at h
        by_cases hcond : c.health ≠ 0 ∧ p.health ≠ 0 ∧ (c.pos.sub p.pos).len <
            c.inscribed_circle_radius + p.inscribed_circle_radius
        · rw [if_pos hcond] at h
          simp only [Option.some.injEq, Prod.mk.injEq] at h
          exact ⟨by rw [← h.1], by rw [← h.2.1]⟩
        · rw [if_neg hcond] at h
          simp only [Option.some.injEq, Prod.mk.injEq] at h
          exact ⟨by rw [← h.1], by rw [← h.2.1]⟩
      · rw [if_neg hg] at h
        simp only [Option.some.injEq, Prod.mk.injEq] at h
        exact ⟨by rw [← h.1], by rw [← h.2.1]⟩
    | Ray life inv freeze vel hl =>
      rw [hr] at h
      simp only at h
      cases htail : p.tail with
      | none => rw [htail] at h; simp at h
      | some tl =>
        rw [htail] at h
        simp only at h
        by_cases hg : p.player_id ≠ c.player_id ∨ inv < p.age
        · rw [if_pos hg] at h
          by_cases hcond : c.health ≠ 0 ∧ p.health ≠ 0
          · rw [if_pos hcond] at h
            cases hac : anyCollides
                (segmentsOf (tl.end_ :: (tl.reflection_points ++ [p.pos])))
                (segments_ringe c.vertices) with
            | none => rw [hac] at h; simp at h
            | some b =>
              rw [hac] at h
              cases b with
              | true =>
                simp only [Option.some.injEq, Prod.mk.injEq] at h
                exact ⟨by rw [← h.1], by rw [← h.2.1]⟩
              | false =>
                simp only [Option.some.injEq, Prod.mk.injEq] at h
                exact ⟨by rw [← h.1], by rw [← h.2.1]⟩
          · rw [if_neg hcond] at h
            simp only [Option.some.injEq, Prod.mk.injEq] at h
            exact ⟨by rw [← h.1], by rw [← h.2.1]⟩
        · rw [if_neg hg] at h
          simp only [Option.some.injEq, Prod.mk.injEq] at h
          exact ⟨by rw [← h.1], by rw [← h.2.1]⟩
    | Mine life inv act vel acc rad det expl dkind dcount =>
      rw [hr] at h
      simp only at h
      by_cases hg : p.activated = true ∧
          (p.player_id ≠ c.player_id ∨ inv < p.age)
      · rw [if_pos hg] at h
        by_cases hexpl : (c.pos.sub p.pos).len <
            c.inscribed_circle_radius + expl
        · rw [if_pos hexpl] at h
          simp only [Option.some.injEq, Prod.mk.injEq] at h
          exact ⟨by rw [← h.1], by rw [← h.2.1]⟩
        · rw [if_neg hexpl] at h
          by_cases hdet : (c.pos.sub p.pos).len <
              c.inscribed_circle_radius + det
          · rw [if_pos hdet] at h
            simp only [Option.some.injEq, Prod.mk.injEq] at h
            exact ⟨by rw [← h.1], by rw [← h.2.1]⟩
          · rw [if_neg hdet] at h
            simp only [Option.some.injEq, Prod.mk.injEq] at h
            exact ⟨by rw [← h.1], by rw [← h.2.1]⟩
      · rw [if_neg hg] at h
        simp only [Option.some.injEq, Prod.mk.injEq] at h
        exact ⟨by rw [← h.1], by rw [← h.2.1]⟩

/-- Setting a slot to an entity with the same id keeps the id list. -/
theorem map_id_set (l : List Entity) (j : ℕ) (p p2 : Entity)
    (hj : l[j]? = some p) (hid : p2.id = p.id) :
    (l.set j p2).map Entity.id = l.map Entity.id := by
  induction l generalizing j with
  | nil => simp at hj
  | cons x xs ih =>
    cases j with
    | zero =>
      simp only [List.getElem?_cons_zero, Option.some.injEq] at hj
      subst hj
      simp [List.set, hid]
    | succ j =>
      simp only [List.getElem?_cons_succ] at hj
      simp [List.set, ih j hj]

/-- The advance pass produces a sub-id-list of the input. -/
theorem advanceEntities_ids (M : MissingOps) (bounds : Rect)
    (shields : List Segment) (dt : ℚ) (l l2 : List Entity)
    (h : advanceEntities M bounds shields dt l = some l2) :
    List.Sublist (l2.map Entity.id) (l.map Entity.id) := by
  induction l generalizing l2 with
  | nil =>
    unfold advanceEntities at h
    simp only [Option.some.injEq] at h
    rw [← h]
  | cons e rest ih =>
    unfold advanceEntities at h
    cases ha : advanceEntity M bounds shields dt e with
    | none => rw [ha] at h; simp at h
    | some pr =>
      obtain ⟨e1, keep⟩ := pr
      rw [ha] at h
      simp only at h
      cases hrest : advanceEntities M bounds shields dt rest with
      | none => rw [hrest] at h; simp at h
      | some rest1 =>
        rw [hrest] at h
        simp only [Option.some.injEq] at h
        have hsub := ih rest1 hrest
        have hid := advanceEntity_id M bounds shields dt e e1 keep ha
        cases keep with
        | true =>
          simp only [if_pos] at h
          rw [← h]
          simp only [List.map_cons, hid]
          exact List.Sublist.cons₂ e.id hsub
        | false =>
          rw [if_neg (by simp)] at h
          rw [← h]
          simp only [List.map_cons]
          exact List.Sublist.cons e.id hsub

/-- The inner damage loop keeps the id list of the entity list unchanged. -/
theorem damageInner_ids (M : MissingOps) (dt : ℚ) (c : Entity)
    (entities : List Entity) (kills : List ℕ)
    (creates : List (EntityCreateInfo × ℕ)) (js : List ℕ)
    (out : Entity × List Entity × List ℕ × List (EntityCreateInfo × ℕ))
    (h : damageInner M dt c entities kills creates js = some out) :
    out.2.1.map Entity.id = entities.map Entity.id := by
  induction js generalizing c entities kills creates with
  | nil =>
    unfold damageInner at h
    simp only [Option.some.injEq] at h
    rw [← h]
  | cons j rest ih =>
    unfold damageInner at h
    cases hj : entities[j]? with
    | none =>
      rw [hj] at h
      simp only at h
      exact ih c entities kills creates h
    | some p =>
      rw [hj] at h
      simp only at h
      cases hb : damageBody M dt c p with
      | none => rw [hb] at h; simp at h
      | some r5 =>
        obtain ⟨c2, p2, ks2, crs2, brk⟩ := r5
        rw [hb] at h
        simp only at h
        have hids := damageBody_ids M dt c p c2 p2 ks2 crs2 brk hb
        have hset := map_id_set entities j p p2 hj hids.2
        cases brk with
        | true =>
          rw [if_pos rfl] at h
          simp only [Option.some.injEq] at h
          rw [← h]
          exact hset
        | false =>
          rw [if_neg (by simp)] at h
          rw [ih c2 _ _ _ h]
          exact hset

/-- The outer damage loop keeps the id list of the entity list unchanged. -/
theorem damageOuter_ids (M : MissingOps) (dt : ℚ) (entities : List Entity)
    (kills : List ℕ) (creates : List (EntityCreateInfo × ℕ)) (cis : List ℕ)
    (out : List Entity × List ℕ × List (EntityCreateInfo × ℕ))
    (h : damageOuter M dt entities kills creates cis = some out) :
    out.1.map Entity.id = entities.map Entity.id := by
  induction cis generalizing entities kills creates with
  | nil =>
    unfold damageOuter at h
    simp only [Option.some.injEq] at h
    rw [← h]
  | cons ci rest ih =>
    unfold damageOuter at h
    cases hc : entities[ci]? with
    | none =>
      rw [hc] at h
      simp only at h
      exact ih entities kills creates h
    | some c =>
      rw [hc] at h
      simp only at h
      cases hr : c.role with
      | Character w =>
        rw [hr] at h
        simp only at h
        cases hinner : damageInner M dt c entities kills creates
            ((List.range entities.length).filter fun j => j ≠ ci) with
        | none => rw [hinner] at h; simp at h
        | some out2 =>
          obtain ⟨c2, entities2, kills2, creates2⟩ := out2
          rw [hinner] at h
          simp only at h
          have hin := damageInner_ids M dt c entities kills creates _ _ hinner
          have hc2 : c2.id = c.id := by
            rcases damageInner_health M dt c entities kills creates _ _
              hinner with h1 | h1
            · rw [show c2 = c from h1]
            · rw [show c2 = { c with health := c.health - 1 } from h1.1]
          have hset : (entities2.set ci c2).map Entity.id =
              entities2.map Entity.id := by
            cases hci2 : entities2[ci]? with
            | none =>
              have hlen : entities2.length ≤ ci := by
                by_contra hlt
                push_neg at hlt
                rw [List.getElem?_eq_getElem hlt] at hci2
                simp at hci2
              rw [List.set_eq_of_length_le hlen]
            | some q =>
              have hq : q.id = c.id := by
                have hmapeq : entities2.map Entity.id =
                    entities.map Entity.id := by
                  simpa using hin
                have h1 : (entities2.map Entity.id)[ci]? = some q.id := by
                  rw [List.getElem?_map, hci2]
                  rfl
                have h2 : (entities.map Entity.id)[ci]? = some c.id := by
                  rw [List.getElem?_map, hc]
                  rfl
                rw [hmapeq, h2] at h1
                simpa using h1.symm
              exact map_id_set entities2 ci q c2 hci2 (by rw [hc2, hq])
          rw [ih _ _ _ h, hset]
          simpa using hin
      | Projectile kind =>
        rw [hr] at h
        simp only at h
        exact ih entities kills creates h

/-- The sweep pass produces a sub-id-list. -/
theorem sweep_ids (l : List Entity) (kills : List ℕ) :
    List.Sublist ((sweep l kills).1.map Entity.id) (l.map Entity.id) := by
  induction l generalizing kills with
  | nil => simp [sweep]
  | cons e rest ih =>
    unfold sweep
    split
    · exact List.Sublist.cons e.id (ih (kills.erase e.id))
    · simpa using List.Sublist.cons₂ e.id (ih kills)

/-- The account sweep produces a sub-id-list. -/
theorem accountSweep_ids (pid : ℕ) (l : List Entity) (kills : List ℕ) :
    List.Sublist ((accountSweep pid l kills).1.map Entity.id) (l.map Entity.id) := by
  induction l generalizing kills with
  | nil => simp [accountSweep]
  | cons e rest ih =>
    unfold accountSweep
    split
    · exact List.Sublist.cons e.id (ih (kills.erase e.id))
    · simpa using List.Sublist.cons₂ e.id (ih kills)

/-- The fresh state satisfies the id invariant. -/
theorem IdInv_new : IdInv GameState.new := by
  unfold IdInv GameState.new
  refine ⟨by simp, ?_⟩
  intro e he
  simp at he

/-- `GameState::create` preserves the id invariant: the new entity takes the
counter value, which no existing entity carries. -/
theorem IdInv_create (s : GameState) (info : EntityCreateInfo) (pid : ℕ)
    (h : IdInv s) : IdInv (s.create info pid) := by
  obtain ⟨hnd, hlt⟩ := h
  unfold IdInv GameState.create
  constructor
  · simp only [List.map_append, List.map_cons, List.map_nil]
    rw [List.nodup_append]
    refine ⟨hnd, List.nodup_singleton _, ?_⟩
    intro a ha hb
    simp only [List.mem_singleton] at hb
    subst hb
    rcases List.mem_map.mp ha with ⟨e, he, heq⟩
    have hx := hlt e he
    rw [heq] at hx
    exact lt_irrefl _ hx
  · intro e he
    rcases List.mem_append.mp he with h1 | h1
    · exact Nat.lt_succ_of_lt (hlt e h1)
    · simp only [List.mem_singleton] at h1
      subst h1
      exact Nat.lt_succ_self _

/-- A list whose id image is a sublist of an invariant-satisfying list keeps
distinctness and the id bound. -/
theorem ids_sublist_inv (l1 l2 : List Entity) (n : ℕ)
    (hsub : List.Sublist (l2.map Entity.id) (l1.map Entity.id))
    (hnd : (l1.map Entity.id).Nodup) (hlt : ∀ e ∈ l1, e.id < n) :
    (l2.map Entity.id).Nodup ∧ ∀ e ∈ l2, e.id < n := by
  refine ⟨hsub.nodup hnd, ?_⟩
  intro e he
  have hmem : e.id ∈ l1.map Entity.id :=
    hsub.subset (List.mem_map_of_mem _ he)
  rcases List.mem_map.mp hmem with ⟨e2, he2, heq⟩
  rw [← heq]
  exact hlt e2 he2

/-- A successful `register_kill` preserves the id invariant (entities are
untouched). -/
theorem IdInv_register_kill (s s2 : GameState) (id : ℕ)
    (h : s.register_kill id = some s2) (hinv : IdInv s) : IdInv s2 := by
  unfold GameState.register_kill at h
  split_ifs at h
  simp only [Option.some.injEq] at h
  rw [← h]
  exact hinv

/-- `account_kill` preserves the id invariant (it only removes entities). -/
theorem IdInv_account_kill (s : GameState) (pid : ℕ) (hinv : IdInv s) :
    IdInv (s.account_kill pid).1 := by
  obtain ⟨hnd, hlt⟩ := hinv
  exact ids_sublist_inv s.entities _ s.next_entity_id
    (accountSweep_ids pid s.entities s.kills) hnd hlt

/-- The aging map of `proceed` keeps the id list. -/
theorem map_id_aged (dt : ℚ) (l : List Entity) :
    ((l.map fun e => { e with age := e.age + dt }).map Entity.id) =
      l.map Entity.id := by
  induction l with
  | nil => rfl
  | cons e rest ih => simp [ih]

/-- The create fold at the end of `proceed` preserves the id invariant. -/
theorem IdInv_foldl_create (creates : List (EntityCreateInfo × ℕ))
    (s : GameState) (hinv : IdInv s) :
    IdInv (creates.foldl (fun st ic => st.create ic.1 ic.2) s) := by
  induction creates generalizing s with
  | nil => exact hinv
  | cons c rest ih =>
    exact ih _ (IdInv_create s c.1 c.2 hinv)

/-- A successful `proceed` preserves the id invariant: aging keeps ids, the
advance and sweep passes only drop entities, damage resolution rewrites
slots id-preservingly, and debris is materialized through `create`. -/
theorem IdInv_proceed (M : MissingOps) (dt : ℚ) (s s2 : GameState)
    (h : s.proceed M dt = some s2) (hinv : IdInv s) : IdInv s2 := by
  obtain ⟨hnd, hlt⟩ := hinv
  simp only [GameState.proceed] at h
  cases hadv : advanceEntities M s.world_bounds
      (collectShields (s.entities.map fun e => { e with age := e.age + dt }))
      dt (s.entities.map fun e => { e with age := e.age + dt }) with
  | none => rw [hadv] at h; simp at h
  | some retained =>
    rw [hadv] at h
    simp only at h
    cases hdmg : damageOuter M dt retained s.kills []
        (List.range retained.length) with
    | none => rw [hdmg] at h; simp at h
    | some out =>
      obtain ⟨ents2, kills2, creates⟩ := out
      rw [hdmg] at h
      simp only [Option.some.injEq] at h
      have hretained : List.Sublist (retained.map Entity.id)
          (s.entities.map Entity.id) := by
        have h1 := advanceEntities_ids M s.world_bounds
          (collectShields (s.entities.map fun e => { e with age := e.age + dt }))
          dt _ _ hadv
        rw [map_id_aged] at h1
        exact h1
      have hents2 : ents2.map Entity.id = retained.map Entity.id := by
        have h2 := damageOuter_ids M dt retained s.kills []
          (List.range retained.length) _ hdmg
        exact h2
      have hsweep : List.Sublist ((sweep ents2 kills2).1.map Entity.id)
          (s.entities.map Entity.id) := by
        have h3 := sweep_ids ents2 kills2
        rw [hents2] at h3
        exact h3.trans hretained
      have hbase : IdInv { s with
          entities := (sweep ents2 kills2).1
          kills := (sweep ents2 kills2).2 } := by
        exact ids_sublist_inv s.entities _ s.next_entity_id hsweep hnd hlt
      rw [← h]
      exact IdInv_foldl_create creates _ hbase

/-- Every reachable state satisfies the id invariant. -/
theorem reachable_IdInv (M : MissingOps) (s : GameState)
    (h : Reachable M s) : IdInv s := by
  induction h with
  | init => exact IdInv_new
  | next s1 s2 op hr hop ih =>
    cases op with
    | create info pid =>
      simp only [applyOp, Option.some.injEq] at hop
      rw [← hop]
      exact IdInv_create s1 info pid ih
    | proceed dt =>
      simp only [applyOp] at hop
      exact IdInv_proceed M dt s1 s2 hop ih
    | register_kill id =>
      simp only [applyOp] at hop
      exact IdInv_register_kill s1 s2 id hop ih
    | account_kill pid =>
      simp only [applyOp, Option.some.injEq] at hop
      rw [← hop]
      exact IdInv_account_kill s1 pid ih

/-- A successful operation sequence keeps the state reachable. -/
theorem reachable_applyOps (M : MissingOps) (ops : List Op)
    (s s2 : GameState) (h : applyOps M ops s = some s2)
    (hr : Reachable M s) : Reachable M s2 := by
  induction ops generalizing s with
  | nil =>
    unfold applyOps at h
    simp only [Option.some.injEq] at h
    rw [← h]
    exact hr
  | cons op rest ih =>
    unfold applyOps at h
    cases hop : applyOp M s op with
    | none => rw [hop] at h; simp at h
    | some s3 =>
      rw [hop] at h
      simp only at h
      exact ih s3 h (Reachable.next s s3 op hr hop)

/-- **C3** (amended): in every `GameState` reachable by `create`, `proceed`,
`register_kill` and `account_kill` operations, entity ids are pairwise
distinct, so every id stored in the kills vector refers to at most one
currently-alive entity; and `register_kill` on an id already present in
`kills` is the failed assertion (`none`), so double-queuing a kill through
`register_kill` never silently succeeds.  (The original claim's "appears in
kills at most once" is refuted by `C3_duplicate_kill_counterexample`: the
mine-explosion branch of `proceed` queues the mine's id once per overlapping
character.) -/
theorem C3_kill_queue_invariant (M : MissingOps) (s : GameState)
    (h : Reachable M s) :
    (s.entities.map Entity.id).Nodup ∧
      (∀ id, id ∈ s.kills → (s.entities.map Entity.id).count id ≤ 1) ∧
      (∀ id, id ∈ s.kills → s.register_kill id = none) := by
  have hinv := reachable_IdInv M s h
  refine ⟨hinv.1, ?_, ?_⟩
  · intro id _
    exact List.nodup_iff_count_le_one.mp hinv.1 id
  · intro id hid
    unfold GameState.register_kill
    rw [if_pos hid]

/-- Witness for C3 at the concrete reachable state `GameState.new`. -/
theorem C3_kill_queue_invariant_witness :
    (GameState.new.entities.map Entity.id).Nodup ∧
      (∀ id, id ∈ GameState.new.kills →
        (GameState.new.entities.map Entity.id).count id ≤ 1) ∧
      (∀ id, id ∈ GameState.new.kills →
        GameState.new.register_kill id = none) :=
  C3_kill_queue_invariant trivialOps GameState.new Reachable.init

/-- Counterexample to the original C3: after three enemy characters stand on
an activated mine for one tick, the reachable state's kills vector is
`[3, 3]` — the mine's id was queued once per overlapping character (three
pushes) and the sweep consumed only one — so an id can appear in `kills`
more than once. -/
theorem C3_duplicate_kill_counterexample :
    Reachable trivialOps c3State ∧ c3State.kills = [3, 3] ∧
      c3State.kills.count 3 = 2 ∧ ¬ c3State.kills.Nodup := by
  have happ : applyOps trivialOps c3Ops GameState.new = some c3State := by
    with_unfolding_all rfl
  refine ⟨reachable_applyOps trivialOps c3Ops GameState.new c3State happ
    Reachable.init, ?_, ?_, ?_⟩
  · with_unfolding_all rfl
  · with_unfolding_all rfl
  · with_unfolding_all decide

end MP
